import Mathlib

/-!
The library gmath: vectors, matrices and colors.

A shallow embedding of the header-only library `gmath` (`gmath.h`, `vec.h`,
`matrix.h`, `color.h`) together with theorems about its operations.

Conventions of the embedding.

* Unsigned machine integers are natural numbers reduced modulo `2 ^ w`.
  `size_t` is 64 bits wide (the x64 target of the intrinsics the library uses);
  `int` and `long` are 32 bits wide. Signed values are integers, converted with
  two's complement wrap-around.
* Floating-point element types are idealised as an exact ordered field; the
  square root kernel is a parameter of every operation that calls it.
* A fixed C array `T data[N]` is a function `Fin N → T`.
* A matrix is its flat array `elements` (`matrix`) wherever its rows are as wide
  as their `M` elements. The storage of the union of `elements` with `rows`, for
  every shape, is `matrix_union`; what the storage held before an object is
  created in it is a parameter of each of its constructors.
-/

namespace gmath

/-! ## gmath.h -/

section kernels

variable {α : Type} [LinearOrderedField α]

/-- The macro `PI`. -/
def PI : α := 3.14159265358979323846

/-- The macro `HALF_PI`. -/
def HALF_PI : α := 1.57079632679489661923

/-- The macro `QUARTER_PI`. -/
def QUARTER_PI : α := 0.785398163397448309616

/-- The function `clamp(value, min, max)`:
`value < min ? min : (value > max ? max : value)`. -/
def clamp {β : Type} [LT β] [DecidableRel (fun x y : β => x < y)] (value min max : β) : β :=
  if value < min then min else (if value > max then max else value)

/-- The function `atan(x)`:
`QUARTER_PI * x - x * (fabs(x) - 1.0) * (0.2447 + 0.0663 * fabs(x))`. -/
def atan (x : α) : α :=
  QUARTER_PI * x - x * (|x| - 1) * (0.2447 + 0.0663 * |x|)

/-- The function `atan2(y, x)`: the four branches on `fabs(x) > fabs(y)` and
`x > 0.0`, each with its `y > 0.0` choice of offset. -/
def atan2 (y x : α) : α :=
  if |x| > |y| then
    let at_ := atan (y / x)
    if x > 0 then at_
    else (if y > 0 then at_ + PI else at_ - PI)
  else
    let at_ := atan (x / y)
    if x > 0 then (if y > 0 then HALF_PI - at_ else -HALF_PI - at_)
    else (if y > 0 then HALF_PI + at_ else -HALF_PI + at_)

end kernels

/-- A counted loop `for (size_t i = 0; i < n; i++) body`, threading the state
`s` through the iterations in increasing order of `i`. -/
def for_range {σ : Type} (n : Nat) (body : Fin n → σ → σ) (s : σ) : σ :=
  (List.finRange n).foldl (fun s i => body i s) s

/-! ## vec.h -/

/-- The class `vector<T, N>`: the array `T data[N]`; the named fields `x`, `y`,
`z`, `w` of the union are `data[0]`, `data[1]`, `data[2]`, `data[3]`. -/
@[ext]
structure vector (α : Type) (N : Nat) where
  data : Fin N → α

namespace vector

/-- The element write `v[i] = x`. -/
def set {α : Type} {N : Nat} (v : vector α N) (i : Fin N) (x : α) : vector α N :=
  ⟨Function.update v.data i x⟩

/-- The function `zero()`: `std::fill` of `data` with `T{}`. -/
def zero {α : Type} [Zero α] {N : Nat} : vector α N := ⟨fun _ => 0⟩

/-- The accumulated `sum` of `magnitude()`:
`for i: sum += data[i] * data[i]`, starting from `T{}`. -/
def sum_squares {α : Type} [Zero α] [Add α] [Mul α] {N : Nat} (v : vector α N) : α :=
  for_range N (fun i sum => sum + v.data i * v.data i) 0

/-- The function `magnitude()`: `gmath::sqrt<T>(sum)`; the square root kernel
is the parameter `sqrt`. -/
def magnitude {α : Type} [Zero α] [Add α] [Mul α] {N : Nat}
    (sqrt : α → α) (v : vector α N) : α :=
  sqrt (sum_squares v)

/-- The operator `a /= b` for a scalar `b`: `for i: a[i] /= b`. -/
def div_assign {α : Type} [Div α] {N : Nat} (a : vector α N) (b : α) : vector α N :=
  for_range N (fun i a => a.set i (a.data i / b)) a

/-- The function `normalize()`: `m = magnitude()`; if `m > 0` divide by `m`,
else `zero()`. -/
def normalize {α : Type} [Zero α] [Add α] [Mul α] [Div α] [LT α]
    [DecidableRel (fun x y : α => x < y)] {N : Nat}
    (sqrt : α → α) (v : vector α N) : vector α N :=
  let m := magnitude sqrt v
  if m > 0 then div_assign v m else zero

/-- The function `normalized()`: copy, then `normalize()` the copy. -/
def normalized {α : Type} [Zero α] [Add α] [Mul α] [Div α] [LT α]
    [DecidableRel (fun x y : α => x < y)] {N : Nat}
    (sqrt : α → α) (v : vector α N) : vector α N :=
  let vec_normalized := v
  normalize sqrt vec_normalized

/-- The function `distance(a, b)`: `for i: sum += abs(a[i] - b[i])`, then
`gmath::sqrt<T>(sum)`. -/
def distance {α : Type} [LinearOrderedRing α] {N : Nat}
    (sqrt : α → α) (a b : vector α N) : α :=
  let sum := for_range N (fun i sum => sum + |a.data i - b.data i|) 0
  sqrt sum

/-- The operator `a *= b` for a scalar `b`: `for i: a[i] *= b`. -/
def mul_assign {α : Type} [Mul α] {N : Nat} (a : vector α N) (b : α) : vector α N :=
  for_range N (fun i a => a.set i (a.data i * b)) a

/-- The function `set_magnitude(m)`: `normalize()`, then `*= m` if `m > 1.0`. -/
def set_magnitude {α : Type} [Zero α] [One α] [Add α] [Mul α] [Div α] [LT α]
    [DecidableRel (fun x y : α => x < y)] {N : Nat}
    (sqrt : α → α) (v : vector α N) (m : α) : vector α N :=
  let v := normalize sqrt v
  if m > 1 then mul_assign v m else v

/-- The function `clamp_magnitude(vec, m)`: `set_magnitude(m)` on the copy `vec`
if `vec.magnitude() > m`; the copy is returned. -/
def clamp_magnitude {α : Type} [Zero α] [One α] [Add α] [Mul α] [Div α] [LT α]
    [DecidableRel (fun x y : α => x < y)] {N : Nat}
    (sqrt : α → α) (vec : vector α N) (m : α) : vector α N :=
  if magnitude sqrt vec > m then set_magnitude sqrt vec m else vec

/-- The operator `a > b` on vectors of one element type:
`a.magnitude() > b.magnitude()`. -/
def gt {α : Type} [Zero α] [Add α] [Mul α] [LT α]
    [DecidableRel (fun x y : α => x < y)] {N : Nat}
    (sqrt : α → α) (a b : vector α N) : Bool :=
  decide (magnitude sqrt a > magnitude sqrt b)

/-- The operator `a < b` on vectors: `!(a > b)`. -/
def lt {α : Type} [Zero α] [Add α] [Mul α] [LT α]
    [DecidableRel (fun x y : α => x < y)] {N : Nat}
    (sqrt : α → α) (a b : vector α N) : Bool :=
  !(gt sqrt a b)

/-- The function `sqr_magnitude()`: `unsquared_magnitude = magnitude()`, then
`unsquared_magnitude * unsquared_magnitude`. -/
def sqr_magnitude {α : Type} [Zero α] [Add α] [Mul α] {N : Nat}
    (sqrt : α → α) (v : vector α N) : α :=
  let unsquared_magnitude := magnitude sqrt v
  unsquared_magnitude * unsquared_magnitude

/-- The function `dot(a, b)`: `for i: result += a[i] * b[i]`, starting from `T{}`. -/
def dot {α : Type} [Zero α] [Add α] [Mul α] {N : Nat} (a b : vector α N) : α :=
  for_range N (fun i result => result + a.data i * b.data i) 0

/-- The operator `a + b` on vectors of one element type: `result{}`, then
`for i: result[i] = a[i] + b[i]`. -/
def add {α : Type} [Zero α] [Add α] {N : Nat} (a b : vector α N) : vector α N :=
  for_range N (fun i result => result.set i (a.data i + b.data i)) zero

end vector

/-! ## matrix.h -/

/-- The class `matrix<T, N, M>` seen through its member `T elements[N * M]`: the
state of a matrix whose rows `vec<T, M>` are `M` elements wide, so that the
array `rows` covers exactly the array `elements`. These are the shapes with
`M ≥ 2` and the shapes with a single row; the storage of the union for every
shape is `matrix_union`. -/
@[ext]
structure matrix (α : Type) (N M : Nat) where
  elements : Fin (N * M) → α

namespace matrix

/-- The row-major flat index `i * M + j`: the position of `rows[i][j]` inside
`elements` where the union lays the `N` row vectors `vec<T, M>` one after the
other, each of them `M` elements wide. A `vec<T, 1>` is four elements wide, and
`matrix_union.row_slot` gives the position of `rows[i][j]` for every shape. -/
def flat_index {N M : Nat} (i : Fin N) (j : Fin M) : Fin (N * M) :=
  ⟨i.val * M + j.val, by
    have h1 : i.val * M + j.val < (i.val + 1) * M := by
      rw [Nat.add_mul, Nat.one_mul]; exact Nat.add_lt_add_left j.isLt _
    exact Nat.lt_of_lt_of_le h1 (Nat.mul_le_mul_right M i.isLt)⟩

/-- The member `rows[i]` of the union, for rows that are `M` elements wide: the
`i`-th row as a `vec<T, M>`. -/
def rows {α : Type} {N M : Nat} (m : matrix α N M) (i : Fin N) : vector α M :=
  ⟨fun j => m.elements (flat_index i j)⟩

/-- The element write `rows[i][j] = x`, for rows that are `M` elements wide. -/
def set_rows {α : Type} {N M : Nat} (m : matrix α N M) (i : Fin N) (j : Fin M) (x : α) :
    matrix α N M :=
  ⟨Function.update m.elements (flat_index i j) x⟩

/-- The element write `elements[k] = x`. -/
def set_element {α : Type} {N M : Nat} (m : matrix α N M) (k : Fin (N * M)) (x : α) :
    matrix α N M :=
  ⟨Function.update m.elements k x⟩

/-- The default constructor `matrix() : elements{}`. -/
def zero_init {α : Type} [Zero α] {N M : Nat} : matrix α N M := ⟨fun _ => 0⟩

/-- The constructor `matrix(T elements[N * M])`: copy of a flat sequence. -/
def of_elements {α : Type} {N M : Nat} (elements : Fin (N * M) → α) : matrix α N M :=
  ⟨elements⟩

/-- The constructor `matrix(const T& diagonal)`: `elements{}`, then
`for i < N, for j < M: if (i == j) rows[i][j] = diagonal`. -/
def of_diagonal {α : Type} [Zero α] {N M : Nat} (diagonal : α) : matrix α N M :=
  for_range N (fun i =>
    for_range M (fun j m =>
      if i.val = j.val then m.set_rows i j diagonal else m)) zero_init

/-- The function `identity()`: `matrix<T, N, M> mat{ 1.0 }`. -/
def identity {α : Type} [Zero α] [One α] {N M : Nat} : matrix α N M := of_diagonal 1

/-- The operator `a *= b` for a scalar `b`: `for i < size(): a[i] *= b`. -/
def mul_assign_scalar {α : Type} [Mul α] {N M : Nat} (a : matrix α N M) (b : α) :
    matrix α N M :=
  for_range (N * M) (fun i a => a.set_element i (a.elements i * b)) a

/-- The operator `a * b` of an `N x M` by an `M x N` matrix: for every `i, j`
the local `sum` starts at `T{}`, accumulates `a.rows[i][k] * b.rows[k][j]`
over `k`, and is stored in `result.rows[i][j]`. -/
def mul {α : Type} [Zero α] [Add α] [Mul α] {N M : Nat}
    (a : matrix α N M) (b : matrix α M N) : matrix α N N :=
  for_range N (fun i =>
    for_range N (fun j result =>
      let sum := for_range M (fun k sum => sum + (a.rows i).data k * (b.rows k).data j) 0
      result.set_rows i j sum)) zero_init

/-- The unscaled `result` of `inverse`: the sixteen cofactor expressions, in the
positions the source assigns them. -/
def inverse_cofactors {α : Type} [Add α] [Sub α] [Mul α] [Neg α]
    (mat : matrix α 4 4) : matrix α 4 4 :=
  let e : Fin 16 → α := mat.elements
  let r0 := e 5 * e 10 * e 15 - e 5 * e 11 * e 14 - e 9 * e 6 * e 15 +
    e 9 * e 7 * e 14 + e 13 * e 6 * e 11 - e 13 * e 7 * e 10
  let r4 := -e 4 * e 10 * e 15 + e 4 * e 11 * e 14 + e 8 * e 6 * e 15 -
    e 8 * e 7 * e 14 - e 12 * e 6 * e 11 + e 12 * e 7 * e 10
  let r8 := e 4 * e 9 * e 15 - e 4 * e 11 * e 13 - e 8 * e 5 * e 15 +
    e 8 * e 7 * e 13 + e 12 * e 5 * e 11 - e 12 * e 7 * e 9
  let r12 := -e 4 * e 9 * e 14 + e 4 * e 10 * e 13 + e 8 * e 5 * e 14 -
    e 8 * e 6 * e 13 - e 12 * e 5 * e 10 + e 12 * e 6 * e 9
  let r1 := -e 1 * e 10 * e 15 + e 1 * e 11 * e 14 + e 9 * e 2 * e 15 -
    e 9 * e 3 * e 14 - e 13 * e 2 * e 11 + e 13 * e 3 * e 10
  let r5 := e 0 * e 10 * e 15 - e 0 * e 11 * e 14 - e 8 * e 2 * e 15 +
    e 8 * e 3 * e 14 + e 12 * e 2 * e 11 - e 12 * e 3 * e 10
  let r9 := -e 0 * e 9 * e 15 + e 0 * e 11 * e 13 + e 8 * e 1 * e 15 -
    e 8 * e 3 * e 13 - e 12 * e 1 * e 11 + e 12 * e 3 * e 9
  let r13 := e 0 * e 9 * e 14 - e 0 * e 10 * e 13 - e 8 * e 1 * e 14 +
    e 8 * e 2 * e 13 + e 12 * e 1 * e 10 - e 12 * e 2 * e 9
  let r2 := e 1 * e 6 * e 15 - e 1 * e 7 * e 14 - e 5 * e 2 * e 15 +
    e 5 * e 3 * e 14 + e 13 * e 2 * e 7 - e 13 * e 3 * e 6
  let r6 := -e 0 * e 6 * e 15 + e 0 * e 7 * e 14 + e 4 * e 2 * e 15 -
    e 4 * e 3 * e 14 - e 12 * e 2 * e 7 + e 12 * e 3 * e 6
  let r10 := e 0 * e 5 * e 15 - e 0 * e 7 * e 13 - e 4 * e 1 * e 15 +
    e 4 * e 3 * e 13 + e 12 * e 1 * e 7 - e 12 * e 3 * e 5
  let r14 := -e 0 * e 5 * e 14 + e 0 * e 6 * e 13 + e 4 * e 1 * e 14 -
    e 4 * e 2 * e 13 - e 12 * e 1 * e 6 + e 12 * e 2 * e 5
  let r3 := -e 1 * e 6 * e 11 + e 1 * e 7 * e 10 + e 5 * e 2 * e 11 -
    e 5 * e 3 * e 10 - e 9 * e 2 * e 7 + e 9 * e 3 * e 6
  let r7 := e 0 * e 6 * e 11 - e 0 * e 7 * e 10 - e 4 * e 2 * e 11 +
    e 4 * e 3 * e 10 + e 8 * e 2 * e 7 - e 8 * e 3 * e 6
  let r11 := -e 0 * e 5 * e 11 + e 0 * e 7 * e 9 + e 4 * e 1 * e 11 -
    e 4 * e 3 * e 9 - e 8 * e 1 * e 7 + e 8 * e 3 * e 5
  let r15 := e 0 * e 5 * e 10 - e 0 * e 6 * e 9 - e 4 * e 1 * e 10 +
    e 4 * e 2 * e 9 + e 8 * e 1 * e 6 - e 8 * e 2 * e 5
  let result : Fin 16 → α :=
    ![r0, r1, r2, r3, r4, r5, r6, r7, r8, r9, r10, r11, r12, r13, r14, r15]
  ⟨result⟩

/-- The value `determinant` computed inside `inverse` before it is inverted:
`mat[0] * result[0] + mat[1] * result[4] + mat[2] * result[8] + mat[3] * result[12]`
over the unscaled `result`. -/
def inverse_determinant {α : Type} [Add α] [Sub α] [Mul α] [Neg α]
    (mat : matrix α 4 4) : α :=
  let e : Fin 16 → α := mat.elements
  let r : Fin 16 → α := (inverse_cofactors mat).elements
  e 0 * r 0 + e 1 * r 4 + e 2 * r 8 + e 3 * r 12

/-- The function `inverse(mat)`: the cofactors, then
`determinant = 1.0 / determinant` and `result *= determinant`. -/
def inverse {α : Type} [Add α] [Sub α] [Mul α] [Neg α] [One α] [Div α]
    (mat : matrix α 4 4) : matrix α 4 4 :=
  let result := inverse_cofactors mat
  let determinant := inverse_determinant mat
  let determinant := 1 / determinant
  mul_assign_scalar result determinant

/-- The function `translation(translation)`: `result{ 1.0 }`, then the three
writes `elements[0 + 3 * 4] = x`, `elements[1 + 3 * 4] = y`,
`elements[2 + 3 * 4] = z`. -/
def translation {α : Type} [Zero α] [One α] (translation : vector α 3) : matrix α 4 4 :=
  let result : matrix α 4 4 := of_diagonal 1
  let result := result.set_element ⟨0 + 3 * 4, by decide⟩ (translation.data 0)
  let result := result.set_element ⟨1 + 3 * 4, by decide⟩ (translation.data 1)
  let result := result.set_element ⟨2 + 3 * 4, by decide⟩ (translation.data 2)
  result

end matrix

/-! ## matrix.h: the storage behind the union -/

/-- Number of elements of type `T` that one object `vec<T, M>` occupies. The
specialisations for `M = 2, 3, 4` hold `data[M]` next to as many named
coordinates; the generic template holds the union of `data[M]` with
`struct { T x, y, z, w; }`, the larger of `M` and four elements, which is four
elements for the one-element vector `vec<T, 1>`. -/
def vec_width (M : Nat) : Nat :=
  if M = 2 ∨ M = 3 ∨ M = 4 then M else max M 4

/-- The storage of an object `matrix<T, N, M>`: the anonymous union of
`T elements[N * M]` with `vec<T, M> rows[N]`, as large as the array `rows`. -/
structure matrix_union (α : Type) (N M : Nat) where
  storage : Fin (N * vec_width M) → α

namespace matrix_union

/-- Position of `elements[k]` in the storage: the array starts the union. -/
def element_slot {N M : Nat} (k : Fin (N * M)) : Fin (N * vec_width M) :=
  ⟨k.val, by
    have hw : M ≤ vec_width M := by
      unfold vec_width
      split
      · exact Nat.le_refl M
      · exact Nat.le_max_left M 4
    exact Nat.lt_of_lt_of_le k.isLt (Nat.mul_le_mul_left N hw)⟩

/-- Position of `rows[i][j]` in the storage: the `i`-th object `vec<T, M>` of
the array `rows` starts `i * vec_width M` elements into the union, and its
`data[j]` lies `j` elements further. -/
def row_slot {N M : Nat} (i : Fin N) (j : Fin M) : Fin (N * vec_width M) :=
  ⟨i.val * vec_width M + j.val, by
    have hw : M ≤ vec_width M := by
      unfold vec_width
      split
      · exact Nat.le_refl M
      · exact Nat.le_max_left M 4
    have h1 : i.val * vec_width M + j.val < (i.val + 1) * vec_width M := by
      rw [Nat.add_mul, Nat.one_mul]
      exact Nat.add_lt_add_left (Nat.lt_of_lt_of_le j.isLt hw) _
    exact Nat.lt_of_lt_of_le h1 (Nat.mul_le_mul_right (vec_width M) i.isLt)⟩

/-- The member `elements[k]` of the union. -/
def elements {α : Type} {N M : Nat} (m : matrix_union α N M) (k : Fin (N * M)) : α :=
  m.storage (element_slot k)

/-- The member `rows[i]` of the union: the `i`-th row as a `vec<T, M>`. -/
def rows {α : Type} {N M : Nat} (m : matrix_union α N M) (i : Fin N) : vector α M :=
  ⟨fun j => m.storage (row_slot i j)⟩

/-- The element write `rows[i][j] = x`. -/
def set_rows {α : Type} {N M : Nat} (m : matrix_union α N M) (i : Fin N) (j : Fin M)
    (x : α) : matrix_union α N M :=
  ⟨Function.update m.storage (row_slot i j) x⟩

/-- The element write `elements[k] = x`. -/
def set_element {α : Type} {N M : Nat} (m : matrix_union α N M) (k : Fin (N * M)) (x : α) :
    matrix_union α N M :=
  ⟨Function.update m.storage (element_slot k) x⟩

/-- The member initialiser `elements{}` on an object created in storage that
holds `before`: the `N * M` elements of the array become `T{}`, and the rest of
the union keeps what the storage held. -/
def zero_elements {α : Type} [Zero α] {N M : Nat} (before : matrix_union α N M) :
    matrix_union α N M :=
  ⟨fun s => if s.val < N * M then 0 else before.storage s⟩

/-- The constructor `matrix(T elements[N * M])` on an object created in storage
that holds `before`: `std::copy` fills the `N * M` elements of the array. -/
def of_elements {α : Type} {N M : Nat} (before : matrix_union α N M)
    (elements : Fin (N * M) → α) : matrix_union α N M :=
  ⟨fun s => if h : s.val < N * M then elements ⟨s.val, h⟩ else before.storage s⟩

/-- The constructor `matrix(const T& diagonal)` on an object created in storage
that holds `before`: `elements{}`, then
`for i < N, for j < M: if (i == j) rows[i][j] = diagonal`. -/
def of_diagonal {α : Type} [Zero α] {N M : Nat} (before : matrix_union α N M)
    (diagonal : α) : matrix_union α N M :=
  for_range N (fun i =>
    for_range M (fun j m =>
      if i.val = j.val then m.set_rows i j diagonal else m)) (zero_elements before)

/-- The function `identity()`: `matrix<T, N, M> mat{ 1.0 }`. -/
def identity {α : Type} [Zero α] [One α] {N M : Nat} (before : matrix_union α N M) :
    matrix_union α N M :=
  of_diagonal before 1

end matrix_union

/-! ## color.h -/

/-- Width in bits of `size_t`. -/
def SIZE_BITS : Nat := 64

/-- The class `color_base<T>` for an unsigned channel type `T` of `W` bits: the
four channels `r, g, b, a` (the array `data[4]` seen through the union). -/
structure color_base (W : Nat) where
  r : Nat
  g : Nat
  b : Nat
  a : Nat
deriving DecidableEq, Repr

/-- The function `max_element_size()`:
`static_cast<size_t>(std::numeric_limits<T>::max())`. -/
def max_element_size (W : Nat) : Nat := (2 ^ W - 1) % 2 ^ SIZE_BITS

/-- The local `type_factor` of `set_hex` and `get_hex`:
`max_element_size() / static_cast<size_t>(std::numeric_limits<uint8_t>::max())`. -/
def type_factor (W : Nat) : Nat := max_element_size W / (255 % 2 ^ SIZE_BITS)

/-- The expression `static_cast<uint8_t>(hex & mask)` with `mask = 0xFF`. -/
def hex_element (hex : Nat) : Nat := (hex &&& 0xFF) % 2 ^ 8

/-- The assignment `channel = element * type_factor`: the product is taken in
`size_t` and converted to `T`. -/
def scale_element (W : Nat) (element : Nat) : Nat :=
  (element * type_factor W) % 2 ^ SIZE_BITS % 2 ^ W

/-- The function `set_hex(uint32_t hex)`: the low byte goes to `a`, then `b`,
`g`, and the high byte to `r`, with `hex >>= 8` between the steps. -/
def set_hex (W : Nat) (hex : Nat) : color_base W :=
  let hex0 := hex % 2 ^ 32
  let a := scale_element W (hex_element hex0)
  let hex1 := hex0 >>> 8
  let b := scale_element W (hex_element hex1)
  let hex2 := hex1 >>> 8
  let g := scale_element W (hex_element hex2)
  let hex3 := hex2 >>> 8
  let r := scale_element W (hex_element hex3)
  { r := r, g := g, b := b, a := a }

/-- The statement `hex |= mask & (channel / type_factor)` on a `uint32_t hex`;
the quotient is taken in `size_t` (`type_factor` is non-zero for every channel
type of at least 8 bits). -/
def or_channel (W : Nat) (hex channel : Nat) : Nat :=
  (hex ||| (0xFF &&& (channel / type_factor W))) % 2 ^ 32

/-- The statement `hex <<= 8` on a `uint32_t hex`. -/
def shl8 (hex : Nat) : Nat := (hex <<< 8) % 2 ^ 32

/-- The function `get_hex()`: `a` is or-ed in first and shifted three times,
then `b`, `g`, and `r` last. -/
def get_hex {W : Nat} (c : color_base W) : Nat :=
  let hex := 0
  let hex := or_channel W hex c.a
  let hex := shl8 hex
  let hex := or_channel W hex c.b
  let hex := shl8 hex
  let hex := or_channel W hex c.g
  let hex := shl8 hex
  let hex := or_channel W hex c.r
  hex

/-- The constructor `color_base(uint32_t hex)`. -/
def color_base.of_hex (W : Nat) (hex : Nat) : color_base W := set_hex W hex

/-- Width in bits of `int`. -/
def INT_BITS : Nat := 32

/-- Width in bits of `long` (32 on the x64 target of the intrinsics header). -/
def LONG_BITS : Nat := 32

/-- Conversion of an integer value to a signed type of `bits` bits (two's
complement wrap-around; the identity on values the type can hold). -/
def to_signed (bits : Nat) (n : Int) : Int :=
  (n + 2 ^ (bits - 1)) % 2 ^ bits - 2 ^ (bits - 1)

/-- Conversion of an integer value to an unsigned type of `bits` bits. -/
def to_unsigned (bits : Nat) (n : Int) : Nat :=
  (n % 2 ^ bits).toNat

/-- The value of an arithmetic result on operands of the channel type `T` of `W`
bits, given its value `n` over the integers: after integral promotion the
operation is done in `int` when `T` is narrower than `int` (no sum of two or
three 8- or 16-bit channels leaves the range of `int`), and in the unsigned type
`T` itself, modulo `2 ^ W`, otherwise. -/
def promoted (W : Nat) (n : Int) : Int :=
  if W < INT_BITS then to_signed INT_BITS n else n % 2 ^ W

/-- The array `data[4]` of a color: the channels `r, g, b, a` in this order. -/
def color_base.data {W : Nat} (c : color_base W) : Fin 4 → Nat :=
  ![c.r, c.g, c.b, c.a]

/-- Every channel of the color is a value of the `W`-bit channel type. -/
def color_base.valid {W : Nat} (c : color_base W) : Prop :=
  c.r < 2 ^ W ∧ c.g < 2 ^ W ∧ c.b < 2 ^ W ∧ c.a < 2 ^ W

/-- The function `normalized()`: every channel, converted to `float`, divided
by `max_element_size()`. -/
def normalized {W : Nat} {α : Type} [Field α] (c : color_base W) : vector α 4 :=
  ⟨![(c.r : α) / (max_element_size W : α), (c.g : α) / (max_element_size W : α),
     (c.b : α) / (max_element_size W : α), (c.a : α) / (max_element_size W : α)]⟩

/-- The function `normalized_precise()`: as `normalized()`, in `double`. -/
def normalized_precise {W : Nat} {α : Type} [Field α] (c : color_base W) : vector α 4 :=
  ⟨![(c.r : α) / (max_element_size W : α), (c.g : α) / (max_element_size W : α),
     (c.b : α) / (max_element_size W : α), (c.a : α) / (max_element_size W : α)]⟩

/-- The function `grayscale()`: `long avg{ (r + g + b) / 3 }`, then
`avg_t = static_cast<T>(avg)` in the three color channels and `a` unchanged. -/
def grayscale {W : Nat} (c : color_base W) : color_base W :=
  let sum : Int := promoted W (promoted W ((c.r : Int) + (c.g : Int)) + (c.b : Int))
  let avg : Int := to_signed LONG_BITS (Int.tdiv sum 3)
  let avg_t : Nat := to_unsigned W avg
  { r := avg_t, g := avg_t, b := avg_t, a := c.a }

/-- One channel of `a += b`:
`static_cast<T>(clamp(static_cast<int>(a[i] + b[i]), 0, static_cast<int>(max(T))))`. -/
def add_channel (W : Nat) (x y : Nat) : Nat :=
  let sum : Int := promoted W ((x : Int) + (y : Int))
  to_unsigned W
    (clamp (to_signed INT_BITS sum) 0 (to_signed INT_BITS ((2 ^ W - 1 : Nat) : Int)))

/-- The operator `a += b` on colors: `for i < 4` the channel `a[i]` is replaced
by the clamped sum. -/
def color_base.add_assign {W : Nat} (a b : color_base W) : color_base W :=
  { r := add_channel W a.r b.r, g := add_channel W a.g b.g,
    b := add_channel W a.b b.b, a := add_channel W a.a b.a }

/-- The operator `a + b` on colors: `result{ a }; result += b`. -/
def color_base.add {W : Nat} (a b : color_base W) : color_base W :=
  let result := a
  result.add_assign b

/-- The operator `a > b` on colors: `a.grayscale()[0] > b.grayscale()[0]`. -/
def color_base.gt {W : Nat} (a b : color_base W) : Bool :=
  decide ((grayscale a).data 0 > (grayscale b).data 0)

/-- The operator `a < b` on colors: `!(a > b)`. -/
def color_base.lt {W : Nat} (a b : color_base W) : Bool :=
  !(color_base.gt a b)

/-- One channel of `a -= b`:
`static_cast<T>(clamp(static_cast<int>(a[i] - b[i]), 0, static_cast<int>(max(T))))`. -/
def sub_channel (W : Nat) (x y : Nat) : Nat :=
  let difference : Int := promoted W ((x : Int) - (y : Int))
  to_unsigned W
    (clamp (to_signed INT_BITS difference) 0 (to_signed INT_BITS ((2 ^ W - 1 : Nat) : Int)))

/-- One channel of `a *= b`:
`static_cast<T>(clamp(static_cast<int>(a[i] * b[i]), 0, static_cast<int>(max(T))))`. -/
def mul_channel (W : Nat) (x y : Nat) : Nat :=
  let product : Int := promoted W ((x : Int) * (y : Int))
  to_unsigned W
    (clamp (to_signed INT_BITS product) 0 (to_signed INT_BITS ((2 ^ W - 1 : Nat) : Int)))

/-- The operator `a -= b` on colors: `for i < 4` the channel `a[i]` is replaced
by the clamped difference. -/
def color_base.sub_assign {W : Nat} (a b : color_base W) : color_base W :=
  { r := sub_channel W a.r b.r, g := sub_channel W a.g b.g,
    b := sub_channel W a.b b.b, a := sub_channel W a.a b.a }

/-- The operator `a *= b` on colors: `for i < 4` the channel `a[i]` is replaced
by the clamped product. -/
def color_base.mul_assign {W : Nat} (a b : color_base W) : color_base W :=
  { r := mul_channel W a.r b.r, g := mul_channel W a.g b.g,
    b := mul_channel W a.b b.b, a := mul_channel W a.a b.a }

/-- The operator `a - b` on colors: `result{ a }; result -= b`. -/
def color_base.sub {W : Nat} (a b : color_base W) : color_base W :=
  let result := a
  result.sub_assign b

/-- The operator `a * b` on colors: `result{ a }; result *= b`. -/
def color_base.mul {W : Nat} (a b : color_base W) : color_base W :=
  let result := a
  result.mul_assign b

/-! ## gmath.h: rounding and the sine kernels -/

/-- The macro `INVERSED_PI`. -/
def INVERSED_PI {α : Type} [LinearOrderedField α] : α := 0.318309886183790671538

/-- The function `deg_to_rad(degrees)`: `degrees * (PI / 180.0)`. -/
def deg_to_rad {α : Type} [LinearOrderedField α] (degrees : α) : α :=
  degrees * (PI / 180)

/-- The integer nearest to `x`, a tie going to the even neighbour: the integer
that the addition `x + 6755399441055744.0` leaves in the low bits of the
`double` under the default rounding mode. -/
def round_half_even {α : Type} [LinearOrderedField α] [FloorRing α] (x : α) : Int :=
  let f : Int := ⌊x⌋
  let d : α := x - (f : α)
  if d < 1 / 2 then f
  else if d > 1 / 2 then f + 1
  else if f % 2 = 0 then f else f + 1

/-- The function `round(x)`: `fast_trunc.d = x + magic`, and the low 32-bit
word `lw` of the sum is returned as an `int32_t`. -/
def round {α : Type} [LinearOrderedField α] [FloorRing α] (x : α) : Int :=
  to_signed 32 (round_half_even x)

/-- The function `round` of `<math.h>`: the integer nearest to `x`, a halfway
case going away from zero. -/
def round_half_away {α : Type} [LinearOrderedField α] [FloorRing α] (x : α) : Int :=
  if 0 ≤ x then ⌊x + 1 / 2⌋ else ⌈x - 1 / 2⌉

/-- The conversion of an integral `double` to `int32_t`: the value itself when
an `int32_t` holds it. The language leaves the conversion of any other value
undefined; the conversion instruction of the x64 target then returns
`-2147483648`. -/
def double_to_int32 (n : Int) : Int :=
  if -2147483648 ≤ n ∧ n < 2147483648 then n else -2147483648

/-- The function `sin(x)`: `k = round(INVERSED_PI * x)`, `x -= k * PI`,
`x2 = x * x`, `x = x * (C + x2 * (B + A * x2))`, and `x = -x` if `k % 2`. The
call `round(INVERSED_PI * x)` stands in a template ahead of the declaration of
the function `round` of this namespace, so it is the function `round` of
`<math.h>`, and its `double` result is converted to the `int32_t k`. -/
def sin {α : Type} [LinearOrderedField α] [FloorRing α] (x : α) : α :=
  let A : α := 0.00735246819687011731341356165096815
  let B : α := -0.16528911397014738207016302002888890
  let C : α := 0.99969198629596757779830113868360584
  let k : Int := double_to_int32 (round_half_away (INVERSED_PI * x))
  let x := x - (k : α) * PI
  let x2 := x * x
  let x := x * (C + x2 * (B + A * x2))
  if Int.tmod k 2 ≠ 0 then -x else x

/-- The function `cos(x)`: `sin(HALF_PI - x)`. -/
def cos {α : Type} [LinearOrderedField α] [FloorRing α] (x : α) : α :=
  sin (HALF_PI - x)

/-- The function `rotation(angle, axis)`: `result{ 1.0 }`, `r = deg_to_rad(angle)`,
`c = cos(r)`, `s = sin(r)`, `omc = 1.0 - c`, then the nine element writes. -/
def matrix.rotation {α : Type} [LinearOrderedField α] [FloorRing α]
    (angle : α) (axis : vector α 3) : matrix α 4 4 :=
  let x := axis.data 0
  let y := axis.data 1
  let z := axis.data 2
  let result : matrix α 4 4 := matrix.of_diagonal 1
  let r := deg_to_rad angle
  let c := cos r
  let s := sin r
  let omc := 1 - c
  let result := result.set_element ⟨0 + 0 * 4, by decide⟩ (x * omc + c)
  let result := result.set_element ⟨1 + 0 * 4, by decide⟩ (y * x * omc + z * s)
  let result := result.set_element ⟨2 + 0 * 4, by decide⟩ (z * x * omc - y * s)
  let result := result.set_element ⟨0 + 1 * 4, by decide⟩ (x * y * omc - z * s)
  let result := result.set_element ⟨1 + 1 * 4, by decide⟩ (y * omc + c)
  let result := result.set_element ⟨2 + 1 * 4, by decide⟩ (y * z * omc + x * s)
  let result := result.set_element ⟨0 + 2 * 4, by decide⟩ (x * z * omc + y * s)
  let result := result.set_element ⟨1 + 2 * 4, by decide⟩ (y * z * omc - x * s)
  let result := result.set_element ⟨2 + 2 * 4, by decide⟩ (z * omc + c)
  result

/-! ## Conversions between floating-point and integer element types -/

/-- The conversion `static_cast<int>(x)` of a floating-point value: the
fractional part is discarded (truncation toward zero); the result is the value
itself when an `int` can hold it. -/
def static_cast_int (x : ℚ) : Int :=
  to_signed INT_BITS (Int.tdiv x.num x.den)

/-- The conversion operator `operator vector<U, N>()` from a floating-point to
an `int` vector: `vec{}`, then `for i: vec[i] = static_cast<U>(data[i])`. -/
def vector.to_int {N : Nat} (v : vector ℚ N) : vector Int N :=
  for_range N (fun i vec => vec.set i (static_cast_int (v.data i))) vector.zero

/-- The operator `a * b` for an `int` matrix `a` and a floating-point matrix `b`:
the local `T sum{}` has the element type of `a`, so every `sum += a.rows[i][k] *
b.rows[k][j]` adds in floating point and converts the sum back to `int`; the
final `sum` is stored in the floating-point `result.rows[i][j]`. -/
def matrix.mul_int_float {N M : Nat} (a : matrix Int N M) (b : matrix ℚ M N) :
    matrix ℚ N N :=
  for_range N (fun i =>
    for_range N (fun j result =>
      let sum : Int := for_range M (fun k sum =>
        static_cast_int ((sum : ℚ) + ((a.rows i).data k : ℚ) * (b.rows k).data j)) 0
      result.set_rows i j (sum : ℚ))) matrix.zero_init

/-! ## Auxiliary definitions for the statements -/

/-- The row view of a matrix as a Mathlib matrix: entry `(i, j)` is `rows[i][j]`. -/
def matrix.toMatrix {α : Type} {N M : Nat} (m : matrix α N M) : Matrix (Fin N) (Fin M) α :=
  fun i j => (m.rows i).data j

/-- The flat index that the numbering `index = row + col * Rows` gives to the
entry in row `row` and column `col` of a matrix with `N` rows and `M` columns. -/
def matrix.spec_index {N M : Nat} (row : Fin N) (col : Fin M) : Fin (N * M) :=
  ⟨row.val + col.val * N, by
    have h1 : row.val + col.val * N < (col.val + 1) * N := by
      rw [Nat.add_mul, Nat.one_mul, Nat.add_comm]; exact Nat.add_lt_add_left row.isLt _
    have h2 : (col.val + 1) * N ≤ M * N := Nat.mul_le_mul_right N col.isLt
    rw [Nat.mul_comm N M]
    exact Nat.lt_of_lt_of_le h1 h2⟩

/-- A sample invertible matrix, given as the flat sequence of its elements. -/
def sample_matrix : matrix ℚ 4 4 :=
  matrix.of_elements ![2, 0, 0, 0, 0, 1, 0, 0, 0, 0, 1, 0, 1, 2, 3, 1]

/-- A sample `2 x 2` matrix whose flat elements are `0, 1, 2, 3`. -/
def sample_matrix2 : matrix ℤ 2 2 :=
  matrix.of_elements ![0, 1, 2, 3]

/-- Storage that holds the value `7` in every element. -/
def sample_storage (N M : Nat) : matrix_union ℤ N M := ⟨fun _ => 7⟩

/-- A sample `3 x 1` matrix, constructed from the flat sequence `1, 2, 3`. -/
def sample_column : matrix_union ℤ 3 1 :=
  matrix_union.of_elements (sample_storage 3 1) ![1, 2, 3]

/-- The reduction quotient `k` that `sin(x)` computes. -/
def sin_quotient {α : Type} [LinearOrderedField α] [FloorRing α] (x : α) : Int :=
  double_to_int32 (round_half_away (INVERSED_PI * x))

/-- The polynomial `y * (C + y2 * (B + A * y2))`, `y2 = y * y`, that `sin`
evaluates at the reduced argument. -/
def sin_polynomial {α : Type} [LinearOrderedField α] (y : α) : α :=
  let A : α := 0.00735246819687011731341356165096815
  let B : α := -0.16528911397014738207016302002888890
  let C : α := 0.99969198629596757779830113868360584
  let y2 := y * y
  y * (C + y2 * (B + A * y2))

end gmath

/-! ## Loop lemmas -/

namespace gmath

theorem foldl_frame {σ ι κ β : Type} (get : σ → κ → β) (step : σ → ι → σ)
    (touched : ι → κ → Prop) (g : κ → β → β)
    (hhit : ∀ s i k, touched i k → get (step s i) k = g k (get s k))
    (hmiss : ∀ s i k, ¬ touched i k → get (step s i) k = get s k) (k : κ) :
    ∀ (l : List ι) (s : σ),
      ((∀ i ∈ l, ¬ touched i k) → get (l.foldl step s) k = get s k) ∧
      (l.Pairwise (fun i j => ¬ (touched i k ∧ touched j k)) →
        (∃ i ∈ l, touched i k) → get (l.foldl step s) k = g k (get s k)) := by
  intro l
  induction l with
  | nil =>
    intro s
    exact ⟨fun _ => rfl, fun _ h => by simp at h⟩
  | cons x l ih =>
    intro s
    have hm : (∀ i ∈ x :: l, ¬ touched i k) → get ((x :: l).foldl step s) k = get s k := by
      intro h
      rw [List.foldl_cons, (ih (step s x)).1 (fun i hi => h i (List.mem_cons_of_mem _ hi))]
      exact hmiss s x k (h x (List.mem_cons_self _ _))
    refine ⟨hm, ?_⟩
    intro hp hex
    rw [List.pairwise_cons] at hp
    rw [List.foldl_cons]
    by_cases hx : touched x k
    · rw [(ih (step s x)).1 (fun i hi hti => hp.1 i hi ⟨hx, hti⟩)]
      exact hhit s x k hx
    · obtain ⟨i, hi, hti⟩ := hex
      rcases List.mem_cons.1 hi with rfl | hil
      · exact absurd hti hx
      · rw [(ih (step s x)).2 hp.2 ⟨i, hil, hti⟩, hmiss s x k hx]

theorem for_range_miss {σ κ β : Type} {n : Nat} (get : σ → κ → β) (body : Fin n → σ → σ)
    (touched : Fin n → κ → Prop) (g : κ → β → β)
    (hhit : ∀ s i k, touched i k → get (body i s) k = g k (get s k))
    (hmiss : ∀ s i k, ¬ touched i k → get (body i s) k = get s k) (s : σ) (k : κ)
    (h : ∀ i, ¬ touched i k) : get (for_range n body s) k = get s k :=
  (foldl_frame get (fun s i => body i s) touched g hhit hmiss k (List.finRange n) s).1
    (fun i _ => h i)

theorem for_range_hit {σ κ β : Type} {n : Nat} (get : σ → κ → β) (body : Fin n → σ → σ)
    (touched : Fin n → κ → Prop) (g : κ → β → β)
    (hdisj : ∀ i j k, touched i k → touched j k → i = j)
    (hhit : ∀ s i k, touched i k → get (body i s) k = g k (get s k))
    (hmiss : ∀ s i k, ¬ touched i k → get (body i s) k = get s k) (s : σ) (k : κ)
    (i : Fin n) (h : touched i k) : get (for_range n body s) k = g k (get s k) := by
  refine (foldl_frame get (fun s i => body i s) touched g hhit hmiss k
    (List.finRange n) s).2 ?_ ⟨i, List.mem_finRange i, h⟩
  refine (List.nodup_finRange n).imp ?_
  intro a b hab hboth
  exact hab (hdisj a b k hboth.1 hboth.2)

theorem for_range_sum {β : Type} [AddCommMonoid β] {n : Nat} (f : Fin n → β) :
    for_range n (fun i sum => sum + f i) 0 = ∑ i, f i := by
  unfold for_range
  rw [Fin.sum_univ_def, List.sum_eq_foldl, List.foldl_map]

/-! ## Matrix storage lemmas -/

namespace matrix

theorem flat_index_inj {N M : Nat} {i i' : Fin N} {j j' : Fin M}
    (h : flat_index i j = flat_index i' j') : i = i' ∧ j = j' := by
  have hv : i.val * M + j.val = i'.val * M + j'.val := congrArg Fin.val h
  have hM : 0 < M := Nat.lt_of_le_of_lt (Nat.zero_le _) j.isLt
  have hi : i.val = i'.val := by
    have h1 := congrArg (fun x => x / M) hv
    simp only at h1
    rw [Nat.add_comm, Nat.add_mul_div_right _ _ hM, Nat.div_eq_of_lt j.isLt,
      Nat.add_comm (i'.val * M), Nat.add_mul_div_right _ _ hM,
      Nat.div_eq_of_lt j'.isLt] at h1
    simpa using h1
  have hj : j.val = j'.val := by
    rw [hi] at hv
    exact Nat.add_left_cancel hv
  exact ⟨Fin.ext hi, Fin.ext hj⟩

theorem rows_set_rows {α : Type} {N M : Nat} (m : matrix α N M) (i i' : Fin N)
    (j j' : Fin M) (x : α) :
    ((m.set_rows i j x).rows i').data j' =
      if i' = i ∧ j' = j then x else (m.rows i').data j' := by
  unfold set_rows rows
  simp only [Function.update_apply]
  by_cases h : i' = i ∧ j' = j
  · obtain ⟨rfl, rfl⟩ := h
    simp
  · have hne : flat_index i' j' ≠ flat_index i j := fun he => h (flat_index_inj he)
    simp [h, hne]

/-- A nested loop that conditionally stores `v i j` in `rows[i][j]` leaves
exactly those entries changed. -/
theorem rows_fill {α : Type} {N M : Nat} (p : Fin N → Fin M → Prop)
    [∀ i j, Decidable (p i j)] (v : Fin N → Fin M → α) (m0 : matrix α N M)
    (i : Fin N) (j : Fin M) :
    ((for_range N (fun i => for_range M (fun j m =>
        if p i j then m.set_rows i j (v i j) else m)) m0).rows i).data j =
      if p i j then v i j else (m0.rows i).data j := by
  let get : matrix α N M → Fin N × Fin M → α := fun m k => (m.rows k.1).data k.2
  let g : Fin N × Fin M → α → α := fun k _ => v k.1 k.2
  -- the inner loop, for a fixed row
  have inner_hit : ∀ (a : Fin N) (m : matrix α N M) (k : Fin N × Fin M),
      (k.1 = a ∧ p k.1 k.2) →
      get (for_range M (fun j m => if p a j then m.set_rows a j (v a j) else m) m) k
        = g k (get m k) := by
    intro a m k hk
    refine for_range_hit get _ (fun b k => k = (a, b) ∧ p a b) g ?_ ?_ ?_ m k k.2 ?_
    · intro b b' k hb hb'
      have := hb.1.symm.trans hb'.1
      exact (Prod.mk.inj this).2
    · intro s b k hb
      obtain ⟨rfl, hp⟩ := hb
      simp [get, g, hp, rows_set_rows]
    · intro s b k hb
      by_cases hp : p a b
      · have hk : ¬ (k.1 = a ∧ k.2 = b) := fun h => hb ⟨Prod.ext h.1 h.2, hp⟩
        simp [get, hp, rows_set_rows, hk]
      · simp [hp]
    · obtain ⟨rfl, hp⟩ := hk
      exact ⟨rfl, hp⟩
  have inner_miss : ∀ (a : Fin N) (m : matrix α N M) (k : Fin N × Fin M),
      ¬ (k.1 = a ∧ p k.1 k.2) →
      get (for_range M (fun j m => if p a j then m.set_rows a j (v a j) else m) m) k
        = get m k := by
    intro a m k hk
    refine for_range_miss get _ (fun b k => k = (a, b) ∧ p a b) g ?_ ?_ m k ?_
    · intro s b k hb
      obtain ⟨rfl, hp⟩ := hb
      simp [get, g, hp, rows_set_rows]
    · intro s b k hb
      by_cases hp : p a b
      · have hk : ¬ (k.1 = a ∧ k.2 = b) := fun h => hb ⟨Prod.ext h.1 h.2, hp⟩
        simp [get, hp, rows_set_rows, hk]
      · simp [hp]
    · rintro b ⟨rfl, hp⟩
      exact hk ⟨rfl, hp⟩
  by_cases hp : p i j
  · rw [if_pos hp]
    exact for_range_hit get _ (fun a k => k.1 = a ∧ p k.1 k.2) g
      (fun a b k ha hb => ha.1.symm.trans hb.1)
      (fun s a k h => inner_hit a s k h) (fun s a k h => inner_miss a s k h)
      m0 (i, j) i ⟨rfl, hp⟩
  · rw [if_neg hp]
    exact for_range_miss get _ (fun a k => k.1 = a ∧ p k.1 k.2) g
      (fun s a k h => inner_hit a s k h) (fun s a k h => inner_miss a s k h)
      m0 (i, j) (fun a h => hp h.2)

theorem rows_zero_init {α : Type} [Zero α] {N M : Nat} (i : Fin N) (j : Fin M) :
    ((zero_init : matrix α N M).rows i).data j = 0 := rfl

theorem rows_of_diagonal {α : Type} [Zero α] {N M : Nat} (d : α) (i : Fin N) (j : Fin M) :
    ((of_diagonal d : matrix α N M).rows i).data j = if i.val = j.val then d else 0 := by
  unfold of_diagonal
  rw [rows_fill (fun i j => i.val = j.val) (fun _ _ => d)]
  rfl

theorem rows_mul {α : Type} [Semiring α] {N M : Nat} (a : matrix α N M) (b : matrix α M N)
    (i j : Fin N) :
    ((mul a b).rows i).data j = ∑ k, (a.rows i).data k * (b.rows k).data j := by
  have h := rows_fill (fun _ _ => True)
    (fun i j => for_range M (fun k sum => sum + (a.rows i).data k * (b.rows k).data j) 0)
    (zero_init : matrix α N N) i j
  simp only [if_true] at h
  unfold mul
  rw [h, for_range_sum]

theorem elements_mul_assign_scalar {α : Type} [Mul α] {N M : Nat} (a : matrix α N M)
    (b : α) (k : Fin (N * M)) :
    (mul_assign_scalar a b).elements k = a.elements k * b := by
  unfold mul_assign_scalar
  refine for_range_hit (fun m k => m.elements k) _ (fun i k => k = i) (fun _ x => x * b)
    ?_ ?_ ?_ a k k rfl
  · intro i j k hi hj
    exact hi.symm.trans hj
  · intro s i k hk
    subst hk
    simp [set_element]
  · intro s i k hk
    simp [set_element, Function.update_apply, hk]

/-- Every element of a matrix is an entry of the row view. -/
theorem ext_rows {α : Type} {N M : Nat} {a b : matrix α N M}
    (h : ∀ i j, (a.rows i).data j = (b.rows i).data j) : a = b := by
  ext k
  have hM : 0 < M := by
    rcases Nat.eq_zero_or_pos M with h0 | h0
    · subst h0
      exact absurd k.isLt (by simp)
    · exact h0
  have hi : k.val / M < N := by
    rw [Nat.div_lt_iff_lt_mul hM]
    exact k.isLt
  have hk : k = flat_index ⟨k.val / M, hi⟩ ⟨k.val % M, Nat.mod_lt _ hM⟩ := by
    apply Fin.ext
    simp only [flat_index]
    exact (Nat.div_add_mod' k.val M).symm
  have := h ⟨k.val / M, hi⟩ ⟨k.val % M, Nat.mod_lt _ hM⟩
  simp only [rows] at this
  rw [hk]
  exact this

end matrix

/-! ## The row view as a Mathlib matrix -/

namespace matrix

theorem toMatrix_mul {α : Type} [Semiring α] {N M : Nat} (a : matrix α N M)
    (b : matrix α M N) : toMatrix (mul a b) = toMatrix a * toMatrix b := by
  ext i j
  simp only [toMatrix, rows_mul, Matrix.mul_apply]

theorem toMatrix_identity {α : Type} [Zero α] [One α] {N : Nat} :
    toMatrix (identity : matrix α N N) = 1 := by
  ext i j
  simp only [toMatrix, identity, rows_of_diagonal, Matrix.one_apply, Fin.ext_iff]

theorem toMatrix_injective {α : Type} {N M : Nat} {a b : matrix α N M}
    (h : toMatrix a = toMatrix b) : a = b :=
  ext_rows (fun i j => congrFun (congrFun h i) j)

theorem vec16_apply {α : Type} (x0 x1 x2 x3 x4 x5 x6 x7 x8 x9 x10 x11 x12 x13 x14 x15 : α) :
    (![x0, x1, x2, x3, x4, x5, x6, x7, x8, x9, x10, x11, x12, x13, x14, x15] : Fin 16 → α) 0 = x0 ∧
    (![x0, x1, x2, x3, x4, x5, x6, x7, x8, x9, x10, x11, x12, x13, x14, x15] : Fin 16 → α) 1 = x1 ∧
    (![x0, x1, x2, x3, x4, x5, x6, x7, x8, x9, x10, x11, x12, x13, x14, x15] : Fin 16 → α) 2 = x2 ∧
    (![x0, x1, x2, x3, x4, x5, x6, x7, x8, x9, x10, x11, x12, x13, x14, x15] : Fin 16 → α) 3 = x3 ∧
    (![x0, x1, x2, x3, x4, x5, x6, x7, x8, x9, x10, x11, x12, x13, x14, x15] : Fin 16 → α) 4 = x4 ∧
    (![x0, x1, x2, x3, x4, x5, x6, x7, x8, x9, x10, x11, x12, x13, x14, x15] : Fin 16 → α) 5 = x5 ∧
    (![x0, x1, x2, x3, x4, x5, x6, x7, x8, x9, x10, x11, x12, x13, x14, x15] : Fin 16 → α) 6 = x6 ∧
    (![x0, x1, x2, x3, x4, x5, x6, x7, x8, x9, x10, x11, x12, x13, x14, x15] : Fin 16 → α) 7 = x7 ∧
    (![x0, x1, x2, x3, x4, x5, x6, x7, x8, x9, x10, x11, x12, x13, x14, x15] : Fin 16 → α) 8 = x8 ∧
    (![x0, x1, x2, x3, x4, x5, x6, x7, x8, x9, x10, x11, x12, x13, x14, x15] : Fin 16 → α) 9 = x9 ∧
    (![x0, x1, x2, x3, x4, x5, x6, x7, x8, x9, x10, x11, x12, x13, x14, x15] : Fin 16 → α) 10 = x10 ∧
    (![x0, x1, x2, x3, x4, x5, x6, x7, x8, x9, x10, x11, x12, x13, x14, x15] : Fin 16 → α) 11 = x11 ∧
    (![x0, x1, x2, x3, x4, x5, x6, x7, x8, x9, x10, x11, x12, x13, x14, x15] : Fin 16 → α) 12 = x12 ∧
    (![x0, x1, x2, x3, x4, x5, x6, x7, x8, x9, x10, x11, x12, x13, x14, x15] : Fin 16 → α) 13 = x13 ∧
    (![x0, x1, x2, x3, x4, x5, x6, x7, x8, x9, x10, x11, x12, x13, x14, x15] : Fin 16 → α) 14 = x14 ∧
    (![x0, x1, x2, x3, x4, x5, x6, x7, x8, x9, x10, x11, x12, x13, x14, x15] : Fin 16 → α) 15 = x15 :=
  ⟨rfl, rfl, rfl, rfl, rfl, rfl, rfl, rfl, rfl, rfl, rfl, rfl, rfl, rfl, rfl, rfl⟩

theorem toMatrix_four {α : Type} (A : matrix α 4 4) :
    toMatrix A =
      (let e : Fin 16 → α := A.elements
       !![e 0, e 1, e 2, e 3;
         e 4, e 5, e 6, e 7;
         e 8, e 9, e 10, e 11;
         e 12, e 13, e 14, e 15]) := by
  ext i j
  fin_cases i <;> fin_cases j <;> rfl

end matrix


namespace matrix

theorem det_four {α : Type} [CommRing α] (a0 a1 a2 a3 a4 a5 a6 a7 a8 a9 a10 a11 a12 a13 a14 a15 : α) :
    Matrix.det !![a0, a1, a2, a3; a4, a5, a6, a7; a8, a9, a10, a11; a12, a13, a14, a15] =
      a0 * (a5 * a10 * a15 - a5 * a11 * a14 - a6 * a9 * a15 + a6 * a11 * a13 +
        a7 * a9 * a14 - a7 * a10 * a13) -
      a1 * (a4 * a10 * a15 - a4 * a11 * a14 - a6 * a8 * a15 + a6 * a11 * a12 +
        a7 * a8 * a14 - a7 * a10 * a12) +
      a2 * (a4 * a9 * a15 - a4 * a11 * a13 - a5 * a8 * a15 + a5 * a11 * a12 +
        a7 * a8 * a13 - a7 * a9 * a12) -
      a3 * (a4 * a9 * a14 - a4 * a10 * a13 - a5 * a8 * a14 + a5 * a10 * a12 +
        a6 * a8 * a13 - a6 * a9 * a12) := by
  rw [Matrix.det_succ_row_zero]
  simp only [Fin.sum_univ_four, Matrix.det_fin_three, Matrix.submatrix_apply]
  have s0 : Fin.succ (0 : Fin 3) = (1 : Fin 4) := rfl
  have s1 : Fin.succ (1 : Fin 3) = (2 : Fin 4) := rfl
  have s2 : Fin.succ (2 : Fin 3) = (3 : Fin 4) := rfl
  have h00 : Fin.succAbove (0 : Fin 4) (0 : Fin 3) = 1 := rfl
  have h01 : Fin.succAbove (0 : Fin 4) (1 : Fin 3) = 2 := rfl
  have h02 : Fin.succAbove (0 : Fin 4) (2 : Fin 3) = 3 := rfl
  have h10 : Fin.succAbove (1 : Fin 4) (0 : Fin 3) = 0 := rfl
  have h11 : Fin.succAbove (1 : Fin 4) (1 : Fin 3) = 2 := rfl
  have h12 : Fin.succAbove (1 : Fin 4) (2 : Fin 3) = 3 := rfl
  have h20 : Fin.succAbove (2 : Fin 4) (0 : Fin 3) = 0 := rfl
  have h21 : Fin.succAbove (2 : Fin 4) (1 : Fin 3) = 1 := rfl
  have h22 : Fin.succAbove (2 : Fin 4) (2 : Fin 3) = 3 := rfl
  have h30 : Fin.succAbove (3 : Fin 4) (0 : Fin 3) = 0 := rfl
  have h31 : Fin.succAbove (3 : Fin 4) (1 : Fin 3) = 1 := rfl
  have h32 : Fin.succAbove (3 : Fin 4) (2 : Fin 3) = 2 := rfl
  have v3 : ((3 : Fin 4) : ℕ) = 3 := rfl
  simp only [s0, s1, s2, h00, h01, h02, h10, h11, h12, h20, h21, h22, h30, h31, h32]
  simp [v3]
  ring

theorem inverse_determinant_eq_det {α : Type} [CommRing α] (A : matrix α 4 4) :
    inverse_determinant A = (toMatrix A).det := by
  rw [toMatrix_four, det_four]
  simp only [inverse_determinant, inverse_cofactors, vec16_apply]
  ring

theorem cofactors_mul {α : Type} [CommRing α] (A : matrix α 4 4) :
    toMatrix (inverse_cofactors A) * toMatrix A =
      inverse_determinant A • (1 : Matrix (Fin 4) (Fin 4) α) := by
  rw [toMatrix_four, toMatrix_four]
  simp only [inverse_determinant, inverse_cofactors, vec16_apply]
  ext i j
  fin_cases i <;> fin_cases j <;>
    simp [Matrix.mul_apply, Fin.sum_univ_four] <;> ring

theorem mul_cofactors {α : Type} [CommRing α] (A : matrix α 4 4) :
    toMatrix A * toMatrix (inverse_cofactors A) =
      inverse_determinant A • (1 : Matrix (Fin 4) (Fin 4) α) := by
  rw [toMatrix_four, toMatrix_four]
  simp only [inverse_determinant, inverse_cofactors, vec16_apply]
  ext i j
  fin_cases i <;> fin_cases j <;>
    simp [Matrix.mul_apply, Fin.sum_univ_four] <;> ring

theorem toMatrix_inverse {α : Type} [Field α] (A : matrix α 4 4) :
    toMatrix (inverse A) = (1 / inverse_determinant A) • toMatrix (inverse_cofactors A) := by
  ext i j
  simp only [toMatrix, rows, inverse, elements_mul_assign_scalar, Matrix.smul_apply,
    smul_eq_mul]
  ring

theorem toMatrix_inverse_mul {α : Type} [Field α] (A : matrix α 4 4)
    (h : inverse_determinant A ≠ 0) : toMatrix (inverse A) * toMatrix A = 1 := by
  rw [toMatrix_inverse, Matrix.smul_mul, cofactors_mul, smul_smul, one_div,
    inv_mul_cancel₀ h, one_smul]

theorem toMatrix_mul_inverse {α : Type} [Field α] (A : matrix α 4 4)
    (h : inverse_determinant A ≠ 0) : toMatrix A * toMatrix (inverse A) = 1 := by
  rw [toMatrix_inverse, Matrix.mul_smul, mul_cofactors, smul_smul, one_div,
    inv_mul_cancel₀ h, one_smul]

theorem inverse_determinant_inverse_ne_zero {α : Type} [Field α] (A : matrix α 4 4)
    (h : inverse_determinant A ≠ 0) : inverse_determinant (inverse A) ≠ 0 := by
  have h1 := congrArg Matrix.det (toMatrix_inverse_mul A h)
  rw [Matrix.det_mul, Matrix.det_one, ← inverse_determinant_eq_det,
    ← inverse_determinant_eq_det] at h1
  intro h0
  rw [h0, zero_mul] at h1
  exact zero_ne_one h1

theorem sample_matrix_determinant : inverse_determinant sample_matrix = 2 := by
  simp only [inverse_determinant, inverse_cofactors, sample_matrix, of_elements, vec16_apply]
  norm_num

end matrix

/-! ## Vector lemmas -/

namespace vector

theorem data_set {α : Type} {N : Nat} (v : vector α N) (i k : Fin N) (x : α) :
    (v.set i x).data k = if k = i then x else v.data k := by
  simp only [set, Function.update_apply]

theorem data_div_assign {α : Type} [Div α] {N : Nat} (a : vector α N) (b : α) (k : Fin N) :
    (div_assign a b).data k = a.data k / b := by
  unfold div_assign
  refine for_range_hit (fun v k => v.data k) _ (fun i k => k = i) (fun _ x => x / b)
    ?_ ?_ ?_ a k k rfl
  · intro i j k hi hj
    exact hi.symm.trans hj
  · intro s i k hk
    subst hk
    simp [data_set]
  · intro s i k hk
    simp [data_set, hk]

theorem sum_squares_eq_sum {α : Type} [Semiring α] {N : Nat} (v : vector α N) :
    sum_squares v = ∑ i, v.data i * v.data i := by
  unfold sum_squares
  exact for_range_sum _

theorem sum_squares_zero {α : Type} [Semiring α] {N : Nat} :
    sum_squares (zero : vector α N) = 0 := by
  rw [sum_squares_eq_sum]
  simp [zero]

theorem sum_squares_pos {α : Type} [LinearOrderedField α] {N : Nat} (v : vector α N)
    (hv : v ≠ zero) : 0 < sum_squares v := by
  rw [sum_squares_eq_sum]
  have hex : ∃ i, v.data i ≠ 0 := by
    by_contra hno
    apply hv
    ext i
    by_contra hi
    exact hno ⟨i, hi⟩
  obtain ⟨i, hi⟩ := hex
  have hle : v.data i * v.data i ≤ ∑ j, v.data j * v.data j :=
    Finset.single_le_sum (f := fun j => v.data j * v.data j)
      (fun j _ => mul_self_nonneg (v.data j)) (Finset.mem_univ i)
  exact lt_of_lt_of_le (mul_self_pos.2 hi) hle

/-- An exact square root of a positive number is positive. -/
theorem exact_sqrt_pos {α : Type} [LinearOrderedField α] (sqrt : α → α)
    (hnn : ∀ x, 0 ≤ sqrt x) (hsq : ∀ x, 0 ≤ x → sqrt x * sqrt x = x) (x : α) (hx : 0 < x) :
    0 < sqrt x := by
  rcases (hnn x).lt_or_eq with h | h
  · exact h
  · have := hsq x hx.le
    rw [← h, zero_mul] at this
    exact absurd this hx.ne

/-- An exact square root maps `1` to `1`. -/
theorem exact_sqrt_one {α : Type} [LinearOrderedField α] (sqrt : α → α)
    (hnn : ∀ x, 0 ≤ sqrt x) (hsq : ∀ x, 0 ≤ x → sqrt x * sqrt x = x) : sqrt 1 = 1 := by
  have h1 := hsq 1 zero_le_one
  have h0 := hnn 1
  nlinarith [h1, h0]

theorem sum_squares_div_assign {α : Type} [LinearOrderedField α] {N : Nat} (v : vector α N)
    (m : α) : sum_squares (div_assign v m) = sum_squares v / (m * m) := by
  rw [sum_squares_eq_sum, sum_squares_eq_sum, Finset.sum_div]
  refine Finset.sum_congr rfl (fun i _ => ?_)
  rw [data_div_assign, div_mul_div_comm]

theorem distance_eq_sqrt_sum {α : Type} [LinearOrderedField α] {N : Nat} (sqrt : α → α)
    (a b : vector α N) : distance sqrt a b = sqrt (∑ i, |a.data i - b.data i|) := by
  unfold distance
  simp only [for_range_sum]

end vector

/-! ## Hex packing of colors -/

/-- C1: the round trip `Color<T>(h).get_hex() == h` fails on the code. For the
hex literals of the demo program, `0xFF501FFF` in the 8-bit color and
`0x05FF06FF` in the 16-bit color, `get_hex` returns the bytes in reverse order,
`0xFF1F50FF` and `0xFF06FF05`, which differ from the literals. -/
theorem get_hex_of_hex_demo :
    get_hex (color_base.of_hex 8 0xFF501FFF) = 0xFF1F50FF ∧
    get_hex (color_base.of_hex 8 0xFF501FFF) ≠ 0xFF501FFF ∧
    get_hex (color_base.of_hex 16 0x05FF06FF) = 0xFF06FF05 ∧
    get_hex (color_base.of_hex 16 0x05FF06FF) ≠ 0x05FF06FF := by
  decide

/-- C2: the 8-bit color built from `0xFF0000FF` has channels `r = 255`, `g = 0`,
`b = 0`, `a = 255`, and its `get_hex()` is `0xFF0000FF`. -/
theorem red_opaque_hex :
    color_base.of_hex 8 0xFF0000FF = { r := 255, g := 0, b := 0, a := 255 } ∧
    get_hex (color_base.of_hex 8 0xFF0000FF) = 0xFF0000FF := by
  decide

/-! ## The closed-form inverse -/

/-- C3: over a field, when the determinant computed by `inverse` is non-zero,
`inverse(A)` is a two-sided inverse of `A` for the library's matrix product:
`inverse(A) * A == identity()` and `A * inverse(A) == identity()`. -/
theorem inverse_mul_and_mul_inverse {α : Type} [Field α] (A : matrix α 4 4)
    (h : matrix.inverse_determinant A ≠ 0) :
    matrix.mul (matrix.inverse A) A = matrix.identity ∧
    matrix.mul A (matrix.inverse A) = matrix.identity := by
  constructor
  · apply matrix.toMatrix_injective
    rw [matrix.toMatrix_mul, matrix.toMatrix_identity, matrix.toMatrix_inverse_mul A h]
  · apply matrix.toMatrix_injective
    rw [matrix.toMatrix_mul, matrix.toMatrix_identity, matrix.toMatrix_mul_inverse A h]

theorem inverse_mul_and_mul_inverse_witness :
    matrix.inverse_determinant sample_matrix ≠ 0 ∧
    (matrix.mul (matrix.inverse sample_matrix) sample_matrix = matrix.identity ∧
     matrix.mul sample_matrix (matrix.inverse sample_matrix) = matrix.identity) :=
  ⟨by rw [matrix.sample_matrix_determinant]; norm_num,
   inverse_mul_and_mul_inverse sample_matrix
    (by rw [matrix.sample_matrix_determinant]; norm_num)⟩

/-- C4: over a field, when the determinant computed by `inverse` is non-zero,
applying the closed-form inverse twice gives back the matrix:
`inverse(inverse(A)) == A`. -/
theorem inverse_inverse {α : Type} [Field α] (A : matrix α 4 4)
    (h : matrix.inverse_determinant A ≠ 0) :
    matrix.inverse (matrix.inverse A) = A := by
  apply matrix.toMatrix_injective
  have hB := matrix.inverse_determinant_inverse_ne_zero A h
  have h1 := matrix.toMatrix_inverse_mul (matrix.inverse A) hB
  have h2 := matrix.toMatrix_mul_inverse A h
  calc matrix.toMatrix (matrix.inverse (matrix.inverse A))
      = matrix.toMatrix (matrix.inverse (matrix.inverse A)) *
          (matrix.toMatrix (matrix.inverse A) * matrix.toMatrix A) := by
        rw [matrix.toMatrix_inverse_mul A h, mul_one]
    _ = matrix.toMatrix A := by
        rw [← mul_assoc, h1, one_mul]

theorem inverse_inverse_witness :
    matrix.inverse_determinant sample_matrix ≠ 0 ∧
    matrix.inverse (matrix.inverse sample_matrix) = sample_matrix :=
  ⟨by rw [matrix.sample_matrix_determinant]; norm_num,
   inverse_inverse sample_matrix (by rw [matrix.sample_matrix_determinant]; norm_num)⟩

/-! ## Construction and storage of matrices -/

namespace matrix_union

theorem vec_width_of_two_le {M : Nat} (h : 2 ≤ M) : vec_width M = M := by
  unfold vec_width
  split
  · rfl
  · exact Nat.max_eq_left (by omega)

/-- Where every row is as wide as its `M` elements, or there is a single row,
`rows[i][j]` lies at the flat index `i * M + j`. -/
theorem row_slot_eq_element_slot {N M : Nat} (h : 2 ≤ M ∨ N ≤ 1) (i : Fin N) (j : Fin M) :
    (row_slot i j : Fin (N * vec_width M)) = element_slot (matrix.flat_index i j) := by
  apply Fin.ext
  simp only [row_slot, element_slot, matrix.flat_index]
  rcases h with h | h
  · rw [vec_width_of_two_le h]
  · have hi : i.val = 0 := by
      have := i.isLt
      omega
    rw [hi, Nat.zero_mul, Nat.zero_mul]

end matrix_union

/-- C6, as stated, fails: in the `2 x 2` matrix with flat elements `0, 1, 2, 3`
the entry `rows[0][1]` is the flat element `1`, while the flat element at index
`0 + 1 * Rows = 2` is `2`. With one column no flat numbering holds: in the
`3 x 1` matrix constructed from the flat sequence `1, 2, 3` in storage that held
`7` everywhere, `rows[1][0]` lies four elements into the union and holds `7`,
while the flat element at index `1 + 0 * Rows = 1` is `2`. -/
theorem rows_not_at_row_plus_col_times_rows :
    (sample_matrix2.rows 0).data 1 = 1 ∧
    sample_matrix2.elements ⟨0 + 1 * 2, by decide⟩ = 2 ∧
    (sample_matrix2.rows 0).data 1 ≠ sample_matrix2.elements ⟨0 + 1 * 2, by decide⟩ ∧
    (matrix_union.row_slot (1 : Fin 3) (0 : Fin 1) : Fin (3 * vec_width 1)).val = 4 ∧
    (sample_column.rows 1).data 0 = 7 ∧
    sample_column.elements ⟨1 + 0 * 3, by decide⟩ = 2 := by
  refine ⟨rfl, rfl, ?_, by decide, by decide, by decide⟩
  show (1 : ℤ) ≠ 2
  decide

/-- C6, amended: for every `N x M` matrix with at least two columns or at most
one row and all valid `i, j`, the entry `rows[i][j]` is the flat element at
index `i * M + j`: the two views address the same element of the storage, and a
write through either view is observed by the other one. -/
theorem rows_alias_elements {α : Type} {N M : Nat} (h : 2 ≤ M ∨ N ≤ 1)
    (m : matrix_union α N M) (i : Fin N) (j : Fin M) (x : α) (k : Fin (N * M)) :
    (matrix.flat_index i j).val = i.val * M + j.val ∧
    (matrix_union.row_slot i j : Fin (N * vec_width M))
      = matrix_union.element_slot (matrix.flat_index i j) ∧
    (m.rows i).data j = m.elements (matrix.flat_index i j) ∧
    (m.set_rows i j x).elements k
      = (if k = matrix.flat_index i j then x else m.elements k) ∧
    ((m.set_element (matrix.flat_index i j) x).rows i).data j = x := by
  have hs := matrix_union.row_slot_eq_element_slot h i j
  refine ⟨rfl, hs, ?_, ?_, ?_⟩
  · simp only [matrix_union.rows, matrix_union.elements, hs]
  · simp only [matrix_union.set_rows, matrix_union.elements, Function.update_apply, hs]
    have hk : (matrix_union.element_slot k : Fin (N * vec_width M))
        = matrix_union.element_slot (matrix.flat_index i j) ↔ k = matrix.flat_index i j := by
      simp only [matrix_union.element_slot, Fin.ext_iff]
    simp only [hk]
  · show Function.update m.storage (matrix_union.element_slot (matrix.flat_index i j)) x
      (matrix_union.row_slot i j) = x
    rw [hs, Function.update_same]

theorem rows_alias_elements_witness :
    (2 ≤ 2 ∨ 3 ≤ 1) ∧
    ((matrix.flat_index (2 : Fin 3) (1 : Fin 2)).val = (2 : Fin 3).val * 2 + (1 : Fin 2).val ∧
    (matrix_union.row_slot (2 : Fin 3) (1 : Fin 2) : Fin (3 * vec_width 2))
      = matrix_union.element_slot (matrix.flat_index (2 : Fin 3) (1 : Fin 2)) ∧
    ((sample_storage 3 2).rows 2).data 1
      = (sample_storage 3 2).elements (matrix.flat_index (2 : Fin 3) (1 : Fin 2)) ∧
    ((sample_storage 3 2).set_rows 2 1 9).elements 5
      = (if (5 : Fin (3 * 2)) = matrix.flat_index (2 : Fin 3) (1 : Fin 2) then 9
          else (sample_storage 3 2).elements 5) ∧
    (((sample_storage 3 2).set_element (matrix.flat_index (2 : Fin 3) (1 : Fin 2)) 9).rows
      2).data 1 = 9) :=
  ⟨Or.inl (Nat.le_refl 2),
   rows_alias_elements (Or.inl (Nat.le_refl 2)) (sample_storage 3 2) 2 1 9 5⟩

/-! ## Normalisation and distance of vectors -/

/-- C7: for every length `N` and every non-zero vector `v`, with an exact
square root, the normalized copy has unit length:
`v.normalized().magnitude() == 1`. -/
theorem normalized_magnitude_eq_one {α : Type} [LinearOrderedField α] {N : Nat}
    (sqrt : α → α) (hnn : ∀ x, 0 ≤ sqrt x) (hsq : ∀ x, 0 ≤ x → sqrt x * sqrt x = x)
    (v : vector α N) (hv : v ≠ vector.zero) :
    vector.magnitude sqrt (vector.normalized sqrt v) = 1 := by
  have hS : 0 < vector.sum_squares v := vector.sum_squares_pos v hv
  have hm : 0 < sqrt (vector.sum_squares v) :=
    vector.exact_sqrt_pos sqrt hnn hsq _ hS
  simp only [vector.normalized, vector.normalize, vector.magnitude, gt_iff_lt, if_pos hm]
  rw [vector.sum_squares_div_assign, hsq _ hS.le, div_self hS.ne']
  exact vector.exact_sqrt_one sqrt hnn hsq

theorem normalized_magnitude_eq_one_witness :
    (∀ x : ℝ, 0 ≤ Real.sqrt x) ∧ (∀ x : ℝ, 0 ≤ x → Real.sqrt x * Real.sqrt x = x) ∧
    (⟨![3, 4]⟩ : vector ℝ 2) ≠ vector.zero ∧
    vector.magnitude Real.sqrt (vector.normalized Real.sqrt (⟨![3, 4]⟩ : vector ℝ 2)) = 1 :=
  have hv : (⟨![3, 4]⟩ : vector ℝ 2) ≠ vector.zero := by
    intro h
    have h0 := congrFun (congrArg vector.data h) 0
    simp [vector.zero] at h0
  ⟨Real.sqrt_nonneg, fun _ hx => Real.mul_self_sqrt hx, hv,
   normalized_magnitude_eq_one Real.sqrt Real.sqrt_nonneg
    (fun _ hx => Real.mul_self_sqrt hx) ⟨![3, 4]⟩ hv⟩

/-- C8: for every length `N`, when the square root kernel does not return a
positive value at `0`, the guard `m > 0` of `normalize()` fails on the zero
vector, so the zeroing branch is taken (no division) and the result is the
zero vector. -/
theorem normalize_zero {α : Type} [LinearOrderedField α] {N : Nat}
    (sqrt : α → α) (h0 : ¬ 0 < sqrt 0) :
    ¬ (vector.magnitude sqrt (vector.zero : vector α N) > 0) ∧
    vector.normalize sqrt (vector.zero : vector α N) = vector.zero := by
  have hm : ¬ (vector.magnitude sqrt (vector.zero : vector α N) > 0) := by
    simp only [vector.magnitude, vector.sum_squares_zero]
    exact h0
  refine ⟨hm, ?_⟩
  simp only [vector.normalize]
  rw [if_neg hm]

theorem normalize_zero_witness :
    ¬ (0 : ℚ) < (fun x : ℚ => x) 0 ∧
    (¬ (vector.magnitude (fun x : ℚ => x) (vector.zero : vector ℚ 3) > 0) ∧
     vector.normalize (fun x : ℚ => x) (vector.zero : vector ℚ 3) = vector.zero) :=
  ⟨by norm_num, normalize_zero (fun x : ℚ => x) (by norm_num)⟩

/-- C9: for all vectors `a, b` of the same length, `distance(a, b)` is the
square root of the sum of the absolute per-element differences; with an exact
square root, for `a = (0, 0)` and `b = (3, 4)` it is `sqrt(7)`, which is not `5`
and not the Euclidean value `sqrt(3 * 3 + 4 * 4)`. -/
theorem distance_sqrt_abs_sum {α : Type} [LinearOrderedField α] (sqrt : α → α)
    (hsq : ∀ x, 0 ≤ x → sqrt x * sqrt x = x) :
    (∀ (N : Nat) (a b : vector α N),
      vector.distance sqrt a b = sqrt (∑ i, |a.data i - b.data i|)) ∧
    vector.distance sqrt (⟨![0, 0]⟩ : vector α 2) ⟨![3, 4]⟩ = sqrt 7 ∧
    vector.distance sqrt (⟨![0, 0]⟩ : vector α 2) ⟨![3, 4]⟩ ≠ 5 ∧
    vector.distance sqrt (⟨![0, 0]⟩ : vector α 2) ⟨![3, 4]⟩ ≠ sqrt (3 * 3 + 4 * 4) := by
  have h7 : vector.distance sqrt (⟨![0, 0]⟩ : vector α 2) ⟨![3, 4]⟩ = sqrt 7 := by
    rw [vector.distance_eq_sqrt_sum]
    congr 1
    simp [Fin.sum_univ_two]
    norm_num
  have hs7 : sqrt 7 * sqrt 7 = 7 := hsq 7 (by norm_num)
  refine ⟨fun N a b => vector.distance_eq_sqrt_sum sqrt a b, h7, ?_, ?_⟩
  · rw [h7]
    intro h5
    rw [h5] at hs7
    norm_num at hs7
  · rw [h7]
    intro he
    have h25 : sqrt (3 * 3 + 4 * 4) * sqrt (3 * 3 + 4 * 4) = 3 * 3 + 4 * 4 :=
      hsq _ (by norm_num)
    rw [← he, hs7] at h25
    norm_num at h25

theorem distance_sqrt_abs_sum_witness :
    (∀ x : ℝ, 0 ≤ x → Real.sqrt x * Real.sqrt x = x) ∧
    ((∀ (N : Nat) (a b : vector ℝ N),
      vector.distance Real.sqrt a b = Real.sqrt (∑ i, |a.data i - b.data i|)) ∧
    vector.distance Real.sqrt (⟨![0, 0]⟩ : vector ℝ 2) ⟨![3, 4]⟩ = Real.sqrt 7 ∧
    vector.distance Real.sqrt (⟨![0, 0]⟩ : vector ℝ 2) ⟨![3, 4]⟩ ≠ 5 ∧
    vector.distance Real.sqrt (⟨![0, 0]⟩ : vector ℝ 2) ⟨![3, 4]⟩
      ≠ Real.sqrt (3 * 3 + 4 * 4)) :=
  ⟨fun _ hx => Real.mul_self_sqrt hx,
   distance_sqrt_abs_sum Real.sqrt (fun _ hx => Real.mul_self_sqrt hx)⟩

/-! ## Interpolation -/

namespace vector

theorem data_mul_assign {α : Type} [Mul α] {N : Nat} (a : vector α N) (b : α) (k : Fin N) :
    (mul_assign a b).data k = a.data k * b := by
  unfold mul_assign
  refine for_range_hit (fun v k => v.data k) _ (fun i k => k = i) (fun _ x => x * b)
    ?_ ?_ ?_ a k k rfl
  · intro i j k hi hj
    exact hi.symm.trans hj
  · intro s i k hk
    subst hk
    simp [data_set]
  · intro s i k hk
    simp [data_set, hk]

theorem sum_squares_mul_assign {α : Type} [LinearOrderedField α] {N : Nat} (v : vector α N)
    (m : α) : sum_squares (mul_assign v m) = sum_squares v * (m * m) := by
  rw [sum_squares_eq_sum, sum_squares_eq_sum, Finset.sum_mul]
  refine Finset.sum_congr rfl (fun i _ => ?_)
  rw [data_mul_assign]
  ring

/-- An exact square root maps `m * m` back to `m` when `m` is not negative. -/
theorem exact_sqrt_mul_self {α : Type} [LinearOrderedField α] (sqrt : α → α)
    (hnn : ∀ x, 0 ≤ sqrt x) (hsq : ∀ x, 0 ≤ x → sqrt x * sqrt x = x) (m : α) (hm : 0 ≤ m) :
    sqrt (m * m) = m :=
  (mul_self_inj (hnn _) hm).1 (hsq _ (mul_self_nonneg m))

/-- An exact square root maps `0` to `0`. -/
theorem exact_sqrt_zero {α : Type} [LinearOrderedField α] (sqrt : α → α)
    (hnn : ∀ x, 0 ≤ sqrt x) (hsq : ∀ x, 0 ≤ x → sqrt x * sqrt x = x) : sqrt 0 = 0 := by
  have h := exact_sqrt_mul_self sqrt hnn hsq 0 le_rfl
  rwa [mul_zero] at h

theorem normalize_of_ne_zero {α : Type} [LinearOrderedField α] {N : Nat} (sqrt : α → α)
    (hnn : ∀ x, 0 ≤ sqrt x) (hsq : ∀ x, 0 ≤ x → sqrt x * sqrt x = x)
    (v : vector α N) (hv : v ≠ zero) :
    normalize sqrt v = div_assign v (magnitude sqrt v) ∧
      sum_squares (normalize sqrt v) = 1 := by
  have hS : 0 < sum_squares v := sum_squares_pos v hv
  have hm : 0 < sqrt (sum_squares v) := exact_sqrt_pos sqrt hnn hsq _ hS
  have hn : normalize sqrt v = div_assign v (magnitude sqrt v) := by
    simp only [normalize, magnitude, gt_iff_lt, if_pos hm]
  refine ⟨hn, ?_⟩
  rw [hn, sum_squares_div_assign, magnitude, hsq _ hS.le, div_self hS.ne']

theorem magnitude_pos_imp_ne_zero {α : Type} [LinearOrderedField α] {N : Nat}
    (sqrt : α → α) (hnn : ∀ x, 0 ≤ sqrt x) (hsq : ∀ x, 0 ≤ x → sqrt x * sqrt x = x)
    (v : vector α N) (h : 0 < magnitude sqrt v) : v ≠ zero := by
  intro hv
  rw [hv, magnitude, sum_squares_zero, exact_sqrt_zero sqrt hnn hsq] at h
  exact lt_irrefl _ h

/-- What `set_magnitude(m)` leaves behind on a non-zero vector, for an exact
square root: the sum of squares is `m * m` when `m > 1` and `1` otherwise. -/
theorem magnitude_set_magnitude {α : Type} [LinearOrderedField α] {N : Nat} (sqrt : α → α)
    (hnn : ∀ x, 0 ≤ sqrt x) (hsq : ∀ x, 0 ≤ x → sqrt x * sqrt x = x)
    (v : vector α N) (hv : v ≠ zero) (m : α) :
    magnitude sqrt (set_magnitude sqrt v m) = if 1 < m then m else 1 := by
  have hn := (normalize_of_ne_zero sqrt hnn hsq v hv).2
  by_cases h1 : 1 < m
  · simp only [set_magnitude, gt_iff_lt, if_pos h1, magnitude]
    rw [sum_squares_mul_assign, hn, one_mul]
    exact exact_sqrt_mul_self sqrt hnn hsq m (le_trans zero_le_one h1.le)
  · simp only [set_magnitude, gt_iff_lt, if_neg h1, magnitude]
    rw [hn]
    exact exact_sqrt_one sqrt hnn hsq

theorem magnitude_clamp_magnitude {α : Type} [LinearOrderedField α] {N : Nat}
    (sqrt : α → α) (hnn : ∀ x, 0 ≤ sqrt x) (hsq : ∀ x, 0 ≤ x → sqrt x * sqrt x = x)
    (v : vector α N) (m : α) (hm : 0 < m) (hgt : m < magnitude sqrt v) :
    magnitude sqrt (clamp_magnitude sqrt v m) = if 1 < m then m else 1 := by
  have hv : v ≠ zero := magnitude_pos_imp_ne_zero sqrt hnn hsq v (lt_trans hm hgt)
  simp only [clamp_magnitude, gt_iff_lt, if_pos hgt]
  exact magnitude_set_magnitude sqrt hnn hsq v hv m

theorem sum_squares_three_four : sum_squares (⟨![3, 4]⟩ : vector ℝ 2) = 25 := by
  rw [sum_squares_eq_sum]
  simp [Fin.sum_univ_two]
  norm_num

theorem three_four_ne_zero : (⟨![3, 4]⟩ : vector ℝ 2) ≠ zero := by
  intro h
  have h0 := congrFun (congrArg vector.data h) 0
  simp [zero] at h0

end vector

/-! ## The arc tangent kernels -/

/-- C11: the quadrant handling of `atan2` fails on the code where `|x| <= |y|`
and `x < 0`. At `y = 1, x = -1` (second quadrant) the result is
`HALF_PI - QUARTER_PI`, below `HALF_PI`; at `y = -1, x = -1` (third quadrant) it
is `-HALF_PI + QUARTER_PI`, above `-HALF_PI`. -/
theorem atan2_steep_left_half_plane :
    atan2 (1 : ℚ) (-1) = HALF_PI - QUARTER_PI ∧
    atan2 (1 : ℚ) (-1) < HALF_PI ∧
    atan2 (-1 : ℚ) (-1) = -HALF_PI + QUARTER_PI ∧
    -HALF_PI < atan2 (-1 : ℚ) (-1) := by
  have h1 : atan2 (1 : ℚ) (-1) = HALF_PI - QUARTER_PI := by
    norm_num [atan2, atan, HALF_PI, QUARTER_PI]
  have h2 : atan2 (-1 : ℚ) (-1) = -HALF_PI + QUARTER_PI := by
    norm_num [atan2, atan, HALF_PI, QUARTER_PI]
  refine ⟨h1, ?_, h2, ?_⟩
  · rw [h1]
    norm_num [HALF_PI, QUARTER_PI]
  · rw [h2]
    norm_num [HALF_PI, QUARTER_PI]

/-! ## Magnitude operations and ordering of vectors -/

/-- C18: for every non-zero vector `v` and scalar `m`, with an exact square
root: after `set_magnitude(m)` the vector is `m` times the normalized `v`, of
magnitude `m`, when `m > 1`; and it is the normalized `v`, of magnitude `1`,
when `m <= 1`. -/
theorem set_magnitude_scales_only_above_one {α : Type} [LinearOrderedField α] {N : Nat}
    (sqrt : α → α) (hnn : ∀ x, 0 ≤ sqrt x) (hsq : ∀ x, 0 ≤ x → sqrt x * sqrt x = x)
    (v : vector α N) (hv : v ≠ vector.zero) (m : α) :
    (1 < m →
      (∀ i, (vector.set_magnitude sqrt v m).data i = (vector.normalized sqrt v).data i * m) ∧
      vector.magnitude sqrt (vector.set_magnitude sqrt v m) = m) ∧
    (m ≤ 1 →
      vector.set_magnitude sqrt v m = vector.normalized sqrt v ∧
      vector.magnitude sqrt (vector.set_magnitude sqrt v m) = 1) := by
  have hmag := vector.magnitude_set_magnitude sqrt hnn hsq v hv m
  constructor
  · intro h1
    refine ⟨fun i => ?_, by rw [hmag, if_pos h1]⟩
    simp only [vector.set_magnitude, gt_iff_lt, if_pos h1, vector.normalized,
      vector.data_mul_assign]
  · intro h1
    refine ⟨?_, by rw [hmag, if_neg (not_lt.2 h1)]⟩
    simp only [vector.set_magnitude, gt_iff_lt, if_neg (not_lt.2 h1), vector.normalized]

theorem set_magnitude_scales_only_above_one_witness :
    (∀ x : ℝ, 0 ≤ Real.sqrt x) ∧ (∀ x : ℝ, 0 ≤ x → Real.sqrt x * Real.sqrt x = x) ∧
    (⟨![3, 4]⟩ : vector ℝ 2) ≠ vector.zero ∧
    (((1 : ℝ) < 2 →
      (∀ i, (vector.set_magnitude Real.sqrt (⟨![3, 4]⟩ : vector ℝ 2) 2).data i
        = (vector.normalized Real.sqrt (⟨![3, 4]⟩ : vector ℝ 2)).data i * 2) ∧
      vector.magnitude Real.sqrt
        (vector.set_magnitude Real.sqrt (⟨![3, 4]⟩ : vector ℝ 2) 2) = 2) ∧
    ((2 : ℝ) ≤ 1 →
      vector.set_magnitude Real.sqrt (⟨![3, 4]⟩ : vector ℝ 2) 2
        = vector.normalized Real.sqrt (⟨![3, 4]⟩ : vector ℝ 2) ∧
      vector.magnitude Real.sqrt
        (vector.set_magnitude Real.sqrt (⟨![3, 4]⟩ : vector ℝ 2) 2) = 1)) :=
  ⟨Real.sqrt_nonneg, fun _ hx => Real.mul_self_sqrt hx, vector.three_four_ne_zero,
   set_magnitude_scales_only_above_one Real.sqrt Real.sqrt_nonneg
    (fun _ hx => Real.mul_self_sqrt hx) ⟨![3, 4]⟩ vector.three_four_ne_zero 2⟩

/-- C19, as stated, fails: with the exact square root of the reals, the vector
`(3, 4)` of magnitude `5` and the bound `m = 1/2 > 0`, the result of
`clamp_magnitude` has magnitude `1`, which exceeds `m`. -/
theorem clamp_magnitude_exceeds_bound_below_one :
    (0 : ℝ) < 1 / 2 ∧
    vector.magnitude Real.sqrt
      (vector.clamp_magnitude Real.sqrt (⟨![3, 4]⟩ : vector ℝ 2) (1 / 2)) = 1 ∧
    ¬ (vector.magnitude Real.sqrt
      (vector.clamp_magnitude Real.sqrt (⟨![3, 4]⟩ : vector ℝ 2) (1 / 2)) ≤ 1 / 2) := by
  have hgt : (1 / 2 : ℝ) < vector.magnitude Real.sqrt (⟨![3, 4]⟩ : vector ℝ 2) := by
    rw [vector.magnitude, vector.sum_squares_three_four, Real.lt_sqrt (by norm_num)]
    norm_num
  have h := vector.magnitude_clamp_magnitude Real.sqrt Real.sqrt_nonneg
    (fun _ hx => Real.mul_self_sqrt hx) (⟨![3, 4]⟩ : vector ℝ 2) (1 / 2) (by norm_num) hgt
  rw [if_neg (by norm_num)] at h
  refine ⟨by norm_num, h, ?_⟩
  rw [h]
  norm_num

/-- C19, amended: for every vector `v` and every bound `m > 0`, with an exact
square root, `clamp_magnitude(v, m)` returns `v` unchanged when the magnitude of
`v` does not exceed `m`, and otherwise a vector whose magnitude is `m` when
`m > 1` and `1` when `m <= 1`; so the magnitude of the result never exceeds
`max(m, 1)`. -/
theorem clamp_magnitude_bound {α : Type} [LinearOrderedField α] {N : Nat}
    (sqrt : α → α) (hnn : ∀ x, 0 ≤ sqrt x) (hsq : ∀ x, 0 ≤ x → sqrt x * sqrt x = x)
    (v : vector α N) (m : α) (hm : 0 < m) :
    (vector.magnitude sqrt v ≤ m → vector.clamp_magnitude sqrt v m = v) ∧
    (m < vector.magnitude sqrt v →
      vector.magnitude sqrt (vector.clamp_magnitude sqrt v m) = if 1 < m then m else 1) ∧
    vector.magnitude sqrt (vector.clamp_magnitude sqrt v m) ≤ max m 1 := by
  have hle : vector.magnitude sqrt v ≤ m → vector.clamp_magnitude sqrt v m = v := by
    intro h
    simp only [vector.clamp_magnitude, gt_iff_lt, if_neg (not_lt.2 h)]
  refine ⟨hle, vector.magnitude_clamp_magnitude sqrt hnn hsq v m hm, ?_⟩
  rcases le_or_lt (vector.magnitude sqrt v) m with h | h
  · rw [hle h]
    exact le_trans h (le_max_left _ _)
  · rw [vector.magnitude_clamp_magnitude sqrt hnn hsq v m hm h]
    by_cases h1 : 1 < m
    · rw [if_pos h1]
      exact le_max_left _ _
    · rw [if_neg h1]
      exact le_max_right _ _

theorem clamp_magnitude_bound_witness :
    (∀ x : ℝ, 0 ≤ Real.sqrt x) ∧ (∀ x : ℝ, 0 ≤ x → Real.sqrt x * Real.sqrt x = x) ∧
    (0 : ℝ) < 2 ∧
    ((vector.magnitude Real.sqrt (⟨![3, 4]⟩ : vector ℝ 2) ≤ 2 →
      vector.clamp_magnitude Real.sqrt (⟨![3, 4]⟩ : vector ℝ 2) 2 = ⟨![3, 4]⟩) ∧
    ((2 : ℝ) < vector.magnitude Real.sqrt (⟨![3, 4]⟩ : vector ℝ 2) →
      vector.magnitude Real.sqrt
        (vector.clamp_magnitude Real.sqrt (⟨![3, 4]⟩ : vector ℝ 2) 2)
        = if (1 : ℝ) < 2 then 2 else 1) ∧
    vector.magnitude Real.sqrt
      (vector.clamp_magnitude Real.sqrt (⟨![3, 4]⟩ : vector ℝ 2) 2) ≤ max 2 1) :=
  ⟨Real.sqrt_nonneg, fun _ hx => Real.mul_self_sqrt hx, by norm_num,
   clamp_magnitude_bound Real.sqrt Real.sqrt_nonneg
    (fun _ hx => Real.mul_self_sqrt hx) ⟨![3, 4]⟩ 2 (by norm_num)⟩

/-- C20: for all vectors `a, b` of the same length, `a > b` holds exactly when
`magnitude(a) > magnitude(b)` and `a < b` is the negation of `a > b`; hence
`a < b` and `b < a` hold together exactly for vectors of equal magnitude, `a < a`
holds, and exactly one of `a < b`, `a > b` holds. -/
theorem vector_gt_by_magnitude_lt_by_negation {α : Type} [LinearOrderedField α] {N : Nat}
    (sqrt : α → α) (a b : vector α N) :
    (vector.gt sqrt a b = true ↔ vector.magnitude sqrt a > vector.magnitude sqrt b) ∧
    vector.lt sqrt a b = !(vector.gt sqrt a b) ∧
    ((vector.lt sqrt a b = true ∧ vector.lt sqrt b a = true) ↔
      vector.magnitude sqrt a = vector.magnitude sqrt b) ∧
    vector.lt sqrt a a = true ∧
    Xor' (vector.lt sqrt a b = true) (vector.gt sqrt a b = true) := by
  refine ⟨by simp [vector.gt], rfl, ?_, by simp [vector.lt, vector.gt], ?_⟩
  · simp only [vector.lt, vector.gt, Bool.not_eq_true', decide_eq_false_iff_not, gt_iff_lt,
      not_lt]
    exact ⟨fun h => le_antisymm h.1 h.2, fun h => ⟨h.le, h.ge⟩⟩
  · simp only [vector.lt]
    cases vector.gt sqrt a b <;> simp [Xor']

/-! ## Transposition and translation -/

namespace matrix

theorem elements_of_diagonal_four {α : Type} [Zero α] (d : α) (r c : Fin 4) :
    (of_diagonal d : matrix α 4 4).elements (spec_index r c)
      = if r = c then d else 0 := by
  have hk : (spec_index r c : Fin (4 * 4)) = flat_index c r :=
    Fin.ext (Nat.add_comm _ _)
  have hrows := rows_of_diagonal (N := 4) (M := 4) d c r
  simp only [rows] at hrows
  rw [hk, hrows]
  by_cases hrc : r = c
  · subst hrc
    simp
  · have hne : ¬ c.val = r.val := fun he => hrc (Fin.ext he.symm)
    simp [hrc, hne]

end matrix

/-- C12: for every 3-vector `t`, under the flat numbering `index = row + col * 4`
the matrix `translation(t)` holds `t.x`, `t.y`, `t.z` at the flat elements
`0 + 3 * 4`, `1 + 3 * 4`, `2 + 3 * 4` (rows 0 to 2 of column 3), `1` at every
diagonal element and `0` at every other element. -/
theorem translation_elements {α : Type} [Zero α] [One α] (t : vector α 3) (r c : Fin 4) :
    (matrix.spec_index r c).val = r.val + c.val * 4 ∧
    (matrix.translation t).elements (matrix.spec_index r c) =
      if c = 3 ∧ r = 0 then t.data 0
      else if c = 3 ∧ r = 1 then t.data 1
      else if c = 3 ∧ r = 2 then t.data 2
      else if r = c then 1 else 0 := by
  refine ⟨rfl, ?_⟩
  simp only [matrix.translation, matrix.set_element, Function.update_apply,
    matrix.elements_of_diagonal_four]
  have v3 : ((3 : Fin 4) : ℕ) = 3 := rfl
  simp only [Fin.ext_iff, matrix.spec_index]
  fin_cases r <;> fin_cases c <;> simp [v3]

theorem to_signed_of_lt (n : Int) (h0 : 0 ≤ n) (h1 : n < 2147483648) :
    to_signed 32 n = n := by
  unfold to_signed
  norm_num
  omega

theorem promoted_narrow (W : Nat) (hW : W < 32) (n : Int) (h0 : 0 ≤ n) (h1 : n < 2147483648) :
    promoted W n = n := by
  simp only [promoted, INT_BITS, if_pos hW]
  exact to_signed_of_lt n h0 h1

theorem to_unsigned_of_lt (W B : Nat) (hB : 2 ^ W = B) (n : Nat) (hn : n < B) :
    to_unsigned W (n : Int) = n := by
  have hBi : (2 : Int) ^ W = (B : Int) := by exact_mod_cast hB
  unfold to_unsigned
  rw [hBi, Int.emod_eq_of_lt (by omega) (by omega), Int.toNat_ofNat]

theorem max_element_size_supported (W : Nat) (hW : W = 8 ∨ W = 16 ∨ W = 32 ∨ W = 64) :
    max_element_size W = 2 ^ W - 1 := by
  rcases hW with rfl | rfl | rfl | rfl <;> decide

theorem grayscale_core (W B : Nat) (hW : W < 32) (hB : 2 ^ W = B) (hB2 : B ≤ 65536)
    (c : color_base W) (hr : c.r < B) (hg : c.g < B) (hb : c.b < B) :
    grayscale c =
      { r := (c.r + c.g + c.b) / 3, g := (c.r + c.g + c.b) / 3,
        b := (c.r + c.g + c.b) / 3, a := c.a } := by
  have b1 : (c.r : Int) + (c.g : Int) < 2147483648 := by omega
  have b2 : (c.r : Int) + (c.g : Int) + (c.b : Int) < 2147483648 := by omega
  have b3 : (0 : Int) ≤ (c.r : Int) + (c.g : Int) := by omega
  have b4 : (0 : Int) ≤ (c.r : Int) + (c.g : Int) + (c.b : Int) := by omega
  have b5 : (c.r + c.g + c.b) / 3 < B := by omega
  have b6 : (((c.r + c.g + c.b) / 3 : Nat) : Int) < 2147483648 := by omega
  have b7 : ((c.r : Int) + (c.g : Int) + (c.b : Int)) / 3
      = (((c.r + c.g + c.b) / 3 : Nat) : Int) := by omega
  have h1 : promoted W ((c.r : Int) + (c.g : Int)) = (c.r : Int) + (c.g : Int) :=
    promoted_narrow W hW _ b3 b1
  have h2 : promoted W ((c.r : Int) + (c.g : Int) + (c.b : Int))
      = (c.r : Int) + (c.g : Int) + (c.b : Int) :=
    promoted_narrow W hW _ b4 b2
  have h3 : Int.tdiv ((c.r : Int) + (c.g : Int) + (c.b : Int)) 3
      = (((c.r + c.g + c.b) / 3 : Nat) : Int) := by
    rw [Int.tdiv_eq_ediv b4 (by norm_num), b7]
  have h4 : to_signed LONG_BITS ((((c.r + c.g + c.b) / 3 : Nat) : Int))
      = (((c.r + c.g + c.b) / 3 : Nat) : Int) :=
    to_signed_of_lt _ (Int.natCast_nonneg _) b6
  have h5 : to_unsigned W ((((c.r + c.g + c.b) / 3 : Nat) : Int)) = (c.r + c.g + c.b) / 3 :=
    to_unsigned_of_lt W B hB _ b5
  simp only [grayscale, h1, h2, h3, h4, h5]

theorem add_channel_core (W B : Nat) (hW : W < 32) (hB : 2 ^ W = B) (hB1 : 0 < B)
    (hB2 : B ≤ 65536) (x y : Nat) (hx : x < B) (hy : y < B) :
    add_channel W x y = min (x + y) (B - 1) := by
  have h1 : promoted W ((x : Int) + (y : Int)) = (x : Int) + (y : Int) :=
    promoted_narrow W hW _ (by omega) (by omega)
  have h2 : to_signed INT_BITS ((x : Int) + (y : Int)) = (x : Int) + (y : Int) :=
    to_signed_of_lt _ (by omega) (by omega)
  have h3 : to_signed INT_BITS (((2 ^ W - 1 : Nat) : Int)) = ((B - 1 : Nat) : Int) := by
    rw [hB]
    exact to_signed_of_lt _ (by omega) (by omega)
  have hc : clamp ((x : Int) + (y : Int)) 0 ((B - 1 : Nat) : Int)
      = ((min (x + y) (B - 1) : Nat) : Int) := by
    unfold clamp
    split_ifs <;> omega
  simp only [add_channel, h1, h2, h3, hc]
  exact to_unsigned_of_lt W B hB _ (by omega)

/-- On the 8- and 16-bit channel types the sum `r + g + b` is taken in `int`
without overflow, and `grayscale()` stores the truncated average. -/
theorem grayscale_narrow (W : Nat) (hW : W = 8 ∨ W = 16) (c : color_base W) (hc : c.valid) :
    grayscale c =
      { r := (c.r + c.g + c.b) / 3, g := (c.r + c.g + c.b) / 3,
        b := (c.r + c.g + c.b) / 3, a := c.a } := by
  obtain ⟨hr, hg, hb, -⟩ := hc
  rcases hW with rfl | rfl
  · norm_num at hr hg hb
    exact grayscale_core 8 256 (by norm_num) (by norm_num) (by norm_num) c hr hg hb
  · norm_num at hr hg hb
    exact grayscale_core 16 65536 (by norm_num) (by norm_num) (by norm_num) c hr hg hb

/-- On the 8- and 16-bit channel types the channel sum is taken in `int`
without overflow, and `+=` stores the sum clamped at `max(T)`. -/
theorem add_channel_narrow (W : Nat) (hW : W = 8 ∨ W = 16) (x y : Nat)
    (hx : x < 2 ^ W) (hy : y < 2 ^ W) :
    add_channel W x y = min (x + y) (2 ^ W - 1) := by
  rcases hW with rfl | rfl
  · norm_num at hx hy ⊢
    exact add_channel_core 8 256 (by norm_num) (by norm_num) (by norm_num) (by norm_num)
      x y hx hy
  · norm_num at hx hy ⊢
    exact add_channel_core 16 65536 (by norm_num) (by norm_num) (by norm_num) (by norm_num)
      x y hx hy

/-- C14: the truncating average fails on the code for the wide channel types.
For the 32-bit color with `r = g = b = 4294967295` the sum `r + g + b` wraps in
`unsigned int`, and `grayscale()` stores `1431655764` where the average over the
integers is `4294967295`. -/
theorem grayscale_wraps_on_32_bit :
    (⟨4294967295, 4294967295, 4294967295, 7⟩ : color_base 32).valid ∧
    grayscale (⟨4294967295, 4294967295, 4294967295, 7⟩ : color_base 32)
      = ⟨1431655764, 1431655764, 1431655764, 7⟩ ∧
    (4294967295 + 4294967295 + 4294967295) / 3 = 4294967295 := by
  refine ⟨by unfold color_base.valid; decide, by decide, by decide⟩

/-- C15: saturating addition fails on the code for the wide channel types. For
the 32-bit colors `a = b = (1, 1, 1, 1)` the bound `static_cast<int>(max(T))` is
`-1` and the clamp returns it, so every channel of `a + b` and of `a += b` is
`4294967295` where `min(1 + 1, max(T))` is `2`. -/
theorem add_not_saturating_on_32_bit :
    (⟨1, 1, 1, 1⟩ : color_base 32).valid ∧
    color_base.add (⟨1, 1, 1, 1⟩ : color_base 32) ⟨1, 1, 1, 1⟩
      = ⟨4294967295, 4294967295, 4294967295, 4294967295⟩ ∧
    color_base.add_assign (⟨1, 1, 1, 1⟩ : color_base 32) ⟨1, 1, 1, 1⟩
      = ⟨4294967295, 4294967295, 4294967295, 4294967295⟩ ∧
    min (1 + 1) (2 ^ 32 - 1) = 2 := by
  refine ⟨by unfold color_base.valid; decide, by decide, by decide, by decide⟩

/-! ## Decoding and normalising colors -/

theorem type_factor_eight : type_factor 8 = 1 := by decide

theorem type_factor_below_eight (W : Nat) (hW : W < 8) : type_factor W = 0 := by
  interval_cases W <;> decide

theorem hex_element_eq_mod (x : Nat) : hex_element x = x % 256 := by
  unfold hex_element
  have h : x &&& 0xFF = x % 2 ^ 8 := Nat.and_pow_two_sub_one_eq_mod x 8
  rw [h]
  omega

theorem scale_element_eight (e : Nat) (he : e < 256) : scale_element 8 e = e := by
  unfold scale_element
  rw [type_factor_eight, SIZE_BITS]
  omega

theorem set_hex_eight (h : Nat) :
    set_hex 8 h =
      { r := h % 2 ^ 32 / 2 ^ 24 % 256, g := h % 2 ^ 32 / 2 ^ 16 % 256,
        b := h % 2 ^ 32 / 2 ^ 8 % 256, a := h % 2 ^ 32 % 256 } := by
  simp only [set_hex, hex_element_eq_mod, Nat.shiftRight_eq_div_pow]
  rw [scale_element_eight _ (Nat.mod_lt _ (by norm_num)),
    scale_element_eight _ (Nat.mod_lt _ (by norm_num)),
    scale_element_eight _ (Nat.mod_lt _ (by norm_num)),
    scale_element_eight _ (Nat.mod_lt _ (by norm_num))]
  simp only [Nat.div_div_eq_div_mul]
  norm_num

/-- C16, as stated, fails for the 8-bit color type: there the scale factor
`max(T) / 255` is `255 / 255 = 1`, and the color decoded from `0xFF0000FF` has
`r = 255` and `a = 255`, not all channels `0`. -/
theorem type_factor_eight_bit_is_one :
    type_factor 8 = 1 ∧
    set_hex 8 0xFF0000FF = { r := 255, g := 0, b := 0, a := 255 } ∧
    set_hex 8 0xFF0000FF ≠ { r := 0, g := 0, b := 0, a := 0 } := by
  decide

/-- C16, amended: for a channel width below 8 bits the scale factor `max(T) / 255`
truncates to `0` and every hex input decodes to the color with all four channels
`0`; for the 8-bit color type the factor is `1` and the four channels are the
four bytes of the input. -/
theorem set_hex_degenerate_below_eight_bits (W h : Nat) (hW : W < 8) :
    type_factor W = 0 ∧
    set_hex W h = { r := 0, g := 0, b := 0, a := 0 } ∧
    type_factor 8 = 1 ∧
    set_hex 8 h =
      { r := h % 2 ^ 32 / 2 ^ 24 % 256, g := h % 2 ^ 32 / 2 ^ 16 % 256,
        b := h % 2 ^ 32 / 2 ^ 8 % 256, a := h % 2 ^ 32 % 256 } := by
  have hf := type_factor_below_eight W hW
  refine ⟨hf, ?_, type_factor_eight, set_hex_eight h⟩
  simp only [set_hex, scale_element, hf, Nat.mul_zero, Nat.zero_mod]

theorem set_hex_degenerate_below_eight_bits_witness :
    7 < 8 ∧
    (type_factor 7 = 0 ∧
    set_hex 7 0xFF0000FF = { r := 0, g := 0, b := 0, a := 0 } ∧
    type_factor 8 = 1 ∧
    set_hex 8 0xFF0000FF =
      { r := 0xFF0000FF % 2 ^ 32 / 2 ^ 24 % 256, g := 0xFF0000FF % 2 ^ 32 / 2 ^ 16 % 256,
        b := 0xFF0000FF % 2 ^ 32 / 2 ^ 8 % 256, a := 0xFF0000FF % 2 ^ 32 % 256 }) :=
  ⟨by decide, set_hex_degenerate_below_eight_bits 7 0xFF0000FF (by decide)⟩

/-- C17: for every supported channel type and every color `c` whose channels
are values of that type, `normalized()` and `normalized_precise()` return the
4-vector `(c.r, c.g, c.b, c.a) / max(T)`; every component lies in `[0, 1]`, a
channel equal to `max(T)` maps to `1`, and for the 8-bit color `0xFF0000FF` the
result is `(1, 0, 0, 1)`. -/
theorem normalized_channels {α : Type} [LinearOrderedField α] (W : Nat)
    (hW : W = 8 ∨ W = 16 ∨ W = 32 ∨ W = 64) (c : color_base W) (hc : c.valid) :
    (∀ i, (normalized c : vector α 4).data i = (c.data i : α) / ((2 ^ W - 1 : Nat) : α)) ∧
    (normalized_precise c : vector α 4) = normalized c ∧
    (∀ i, 0 ≤ (normalized c : vector α 4).data i ∧ (normalized c : vector α 4).data i ≤ 1) ∧
    (∀ i, c.data i = 2 ^ W - 1 → (normalized c : vector α 4).data i = 1) ∧
    (normalized (color_base.of_hex 8 0xFF0000FF) : vector α 4) = ⟨![1, 0, 0, 1]⟩ := by
  have hmax := max_element_size_supported W hW
  have hpos : 0 < 2 ^ W - 1 := by
    rcases hW with rfl | rfl | rfl | rfl <;> norm_num
  have hposα : (0 : α) < ((2 ^ W - 1 : Nat) : α) := by exact_mod_cast hpos
  have hdata : ∀ i, (normalized c : vector α 4).data i
      = (c.data i : α) / ((2 ^ W - 1 : Nat) : α) := by
    intro i
    fin_cases i <;> simp [normalized, color_base.data, hmax]
  have hle : ∀ i, c.data i ≤ 2 ^ W - 1 := by
    obtain ⟨hr, hg, hb, ha⟩ := hc
    intro i
    fin_cases i <;> simp [color_base.data] <;> omega
  refine ⟨hdata, rfl, ?_, ?_, ?_⟩
  · intro i
    rw [hdata i]
    refine ⟨div_nonneg (Nat.cast_nonneg _) hposα.le, ?_⟩
    rw [div_le_one hposα]
    exact_mod_cast hle i
  · intro i hi
    rw [hdata i, hi, div_self hposα.ne']
  · have h8 : color_base.of_hex 8 0xFF0000FF = { r := 255, g := 0, b := 0, a := 255 } := by
      decide
    have hm8 : max_element_size 8 = 255 := by decide
    rw [h8]
    ext i
    fin_cases i <;> simp [normalized, hm8]

theorem normalized_channels_witness :
    (8 = 8 ∨ 8 = 16 ∨ 8 = 32 ∨ 8 = 64) ∧
    (⟨255, 0, 0, 255⟩ : color_base 8).valid ∧
    ((∀ i, (normalized (⟨255, 0, 0, 255⟩ : color_base 8) : vector ℚ 4).data i
        = ((⟨255, 0, 0, 255⟩ : color_base 8).data i : ℚ) / ((2 ^ 8 - 1 : Nat) : ℚ)) ∧
    (normalized_precise (⟨255, 0, 0, 255⟩ : color_base 8) : vector ℚ 4)
      = normalized (⟨255, 0, 0, 255⟩ : color_base 8) ∧
    (∀ i, 0 ≤ (normalized (⟨255, 0, 0, 255⟩ : color_base 8) : vector ℚ 4).data i ∧
      (normalized (⟨255, 0, 0, 255⟩ : color_base 8) : vector ℚ 4).data i ≤ 1) ∧
    (∀ i, (⟨255, 0, 0, 255⟩ : color_base 8).data i = 2 ^ 8 - 1 →
      (normalized (⟨255, 0, 0, 255⟩ : color_base 8) : vector ℚ 4).data i = 1) ∧
    (normalized (color_base.of_hex 8 0xFF0000FF) : vector ℚ 4) = ⟨![1, 0, 0, 1]⟩) :=
  have hv : (⟨255, 0, 0, 255⟩ : color_base 8).valid := by
    unfold color_base.valid
    decide
  ⟨Or.inl rfl, hv, normalized_channels 8 (Or.inl rfl) ⟨255, 0, 0, 255⟩ hv⟩


/-! ## Ordering, subtraction and multiplication of colors -/

theorem to_signed_of_range (n : Int) (h0 : -2147483648 ≤ n) (h1 : n < 2147483648) :
    to_signed 32 n = n := by
  unfold to_signed
  norm_num
  omega

theorem sub_channel_eight (x y : Nat) (hx : x < 256) (hy : y < 256) :
    sub_channel 8 x y = x - y := by
  have b1 : (-2147483648 : Int) ≤ (x : Int) - (y : Int) := by omega
  have b2 : (x : Int) - (y : Int) < 2147483648 := by omega
  have b3 : ((x - y : Nat) : Int) < 256 := by omega
  have hc : clamp ((x : Int) - (y : Int)) 0 255 = ((x - y : Nat) : Int) := by
    unfold clamp
    split_ifs <;> omega
  have hx8 : x - y < 256 := by omega
  have h1 : promoted 8 ((x : Int) - (y : Int)) = (x : Int) - (y : Int) := by
    simp only [promoted, INT_BITS]
    rw [if_pos (by norm_num)]
    exact to_signed_of_range _ b1 b2
  have h2 : to_signed INT_BITS ((x : Int) - (y : Int)) = (x : Int) - (y : Int) :=
    to_signed_of_range _ b1 b2
  have h3 : to_signed INT_BITS (((2 ^ 8 - 1 : Nat) : Int)) = 255 := by
    have h255 : ((2 ^ 8 - 1 : Nat) : Int) = 255 := by norm_num
    rw [h255]
    exact to_signed_of_range _ (by norm_num) (by norm_num)
  simp only [sub_channel, h1, h2, h3, hc]
  exact to_unsigned_of_lt 8 256 (by norm_num) _ hx8

theorem mul_channel_eight (x y : Nat) (hx : x < 256) (hy : y < 256) :
    mul_channel 8 x y = min (x * y) 255 := by
  have hxy : x * y ≤ 255 * 255 := Nat.mul_le_mul (by omega) (by omega)
  have b0 : ((x : Int) * (y : Int)) = ((x * y : Nat) : Int) := by push_cast; ring
  generalize x * y = p at hxy b0
  have b1 : (-2147483648 : Int) ≤ (p : Int) := by omega
  have b2 : (p : Int) < 2147483648 := by omega
  have hc : clamp (p : Int) 0 255 = ((min p 255 : Nat) : Int) := by
    unfold clamp
    split_ifs <;> omega
  have hm : min p 255 < 256 := by omega
  have h1 : promoted 8 (p : Int) = (p : Int) := by
    simp only [promoted, INT_BITS]
    rw [if_pos (by norm_num)]
    exact to_signed_of_range _ b1 b2
  have h2 : to_signed INT_BITS (p : Int) = (p : Int) := to_signed_of_range _ b1 b2
  have h3 : to_signed INT_BITS (((2 ^ 8 - 1 : Nat) : Int)) = 255 := by
    have h255 : ((2 ^ 8 - 1 : Nat) : Int) = 255 := by norm_num
    rw [h255]
    exact to_signed_of_range _ (by norm_num) (by norm_num)
  simp only [mul_channel, b0, h1, h2, h3, hc]
  exact to_unsigned_of_lt 8 256 (by norm_num) _ hm

/-- C21: for all colors `a, b` of one channel type, `a > b` holds exactly when
the first channel of `grayscale(a)` is greater than the first channel of
`grayscale(b)`; replacing the alpha of either operand does not change the
outcome; `a < b` is the negation of `a > b`, and `a < a` holds. -/
theorem color_gt_by_grayscale_lt_by_negation {W : Nat} (a b : color_base W) (x y : Nat) :
    (color_base.gt a b = true ↔ (grayscale a).data 0 > (grayscale b).data 0) ∧
    color_base.gt ({ a with a := x } : color_base W) ({ b with a := y } : color_base W)
      = color_base.gt a b ∧
    color_base.lt ({ a with a := x } : color_base W) ({ b with a := y } : color_base W)
      = color_base.lt a b ∧
    color_base.lt a b = !(color_base.gt a b) ∧
    color_base.lt a a = true := by
  refine ⟨by simp [color_base.gt], rfl, rfl, rfl, by simp [color_base.lt, color_base.gt]⟩

/-- C27: for the 8-bit color type and all colors `a, b`, every channel of
`a - b` (and of `a -= b`) is `max(a[i] - b[i], 0)` and every channel of `a * b`
(and of `a *= b`) is `min(a[i] * b[i], 255)`, the difference and the product
being taken over the integers. -/
theorem sub_and_mul_saturate_on_8_bit (a b : color_base 8) (ha : a.valid) (hb : b.valid)
    (i : Fin 4) :
    (((a.sub b).data i : Nat) : Int) = max ((a.data i : Int) - (b.data i : Int)) 0 ∧
    (a.mul b).data i = min (a.data i * b.data i) 255 ∧
    a.sub_assign b = a.sub b ∧ a.mul_assign b = a.mul b := by
  obtain ⟨har, hag, hab, haa⟩ := ha
  obtain ⟨hbr, hbg, hbb, hba⟩ := hb
  norm_num at har hag hab haa hbr hbg hbb hba
  refine ⟨?_, ?_, rfl, rfl⟩
  · fin_cases i <;>
      simp only [color_base.sub, color_base.sub_assign, color_base.data] <;>
      simp [sub_channel_eight, *] <;> omega
  · fin_cases i <;>
      simp only [color_base.mul, color_base.mul_assign, color_base.data] <;>
      simp [mul_channel_eight, *]

theorem sub_and_mul_saturate_on_8_bit_witness :
    (⟨10, 20, 30, 255⟩ : color_base 8).valid ∧ (⟨20, 5, 30, 2⟩ : color_base 8).valid ∧
    ((((color_base.sub (⟨10, 20, 30, 255⟩ : color_base 8) ⟨20, 5, 30, 2⟩).data 3 : Nat) : Int)
      = max (((⟨10, 20, 30, 255⟩ : color_base 8).data 3 : Int)
          - ((⟨20, 5, 30, 2⟩ : color_base 8).data 3 : Int)) 0 ∧
    (color_base.mul (⟨10, 20, 30, 255⟩ : color_base 8) ⟨20, 5, 30, 2⟩).data 3
      = min ((⟨10, 20, 30, 255⟩ : color_base 8).data 3
          * (⟨20, 5, 30, 2⟩ : color_base 8).data 3) 255 ∧
    color_base.sub_assign (⟨10, 20, 30, 255⟩ : color_base 8) ⟨20, 5, 30, 2⟩
      = color_base.sub (⟨10, 20, 30, 255⟩ : color_base 8) ⟨20, 5, 30, 2⟩ ∧
    color_base.mul_assign (⟨10, 20, 30, 255⟩ : color_base 8) ⟨20, 5, 30, 2⟩
      = color_base.mul (⟨10, 20, 30, 255⟩ : color_base 8) ⟨20, 5, 30, 2⟩) :=
  have h1 : (⟨10, 20, 30, 255⟩ : color_base 8).valid := by
    unfold color_base.valid
    decide
  have h2 : (⟨20, 5, 30, 2⟩ : color_base 8).valid := by
    unfold color_base.valid
    decide
  ⟨h1, h2, sub_and_mul_saturate_on_8_bit ⟨10, 20, 30, 255⟩ ⟨20, 5, 30, 2⟩ h1 h2 3⟩

/-! ## The byte order of `get_hex` -/

theorem type_factor_supported (W : Nat) (hW : W = 8 ∨ W = 16 ∨ W = 32 ∨ W = 64) :
    0 < type_factor W ∧ 255 * type_factor W < 2 ^ W ∧ 2 ^ W ≤ 2 ^ SIZE_BITS := by
  rcases hW with rfl | rfl | rfl | rfl <;> decide

theorem scale_element_supported (W : Nat) (hW : W = 8 ∨ W = 16 ∨ W = 32 ∨ W = 64)
    (e : Nat) (he : e < 256) : scale_element W e = e * type_factor W := by
  obtain ⟨-, h2, h3⟩ := type_factor_supported W hW
  have hle : e * type_factor W ≤ 255 * type_factor W :=
    Nat.mul_le_mul_right _ (by omega)
  unfold scale_element
  rw [Nat.mod_eq_of_lt (lt_of_lt_of_le (lt_of_le_of_lt hle h2) h3),
    Nat.mod_eq_of_lt (lt_of_le_of_lt hle h2)]

theorem or_channel_scaled (W : Nat) (hW : W = 8 ∨ W = 16 ∨ W = 32 ∨ W = 64)
    (q e : Nat) (he : e < 256) (hq : 256 * q + e < 2 ^ 32) :
    or_channel W (256 * q) (e * type_factor W) = 256 * q + e := by
  obtain ⟨h1, -, -⟩ := type_factor_supported W hW
  have hand : 0xFF &&& e = e := by
    have h := Nat.and_pow_two_sub_one_eq_mod e 8
    rw [Nat.and_comm]
    have h' : e &&& 0xFF = e % 2 ^ 8 := h
    rw [h']
    exact Nat.mod_eq_of_lt he
  have hor : 256 * q ||| e = 256 * q + e :=
    (Nat.mul_add_lt_is_or (i := 8) he q).symm
  unfold or_channel
  rw [Nat.mul_div_cancel _ h1, hand, hor, Nat.mod_eq_of_lt hq]

theorem shl8_eq (hex : Nat) (h : hex * 256 < 2 ^ 32) : shl8 hex = 256 * hex := by
  unfold shl8
  rw [Nat.shiftLeft_eq, Nat.mod_eq_of_lt (by simpa using h)]
  omega

theorem get_hex_set_hex (W : Nat) (hW : W = 8 ∨ W = 16 ∨ W = 32 ∨ W = 64) (h : Nat)
    (hh : h < 2 ^ 32) :
    get_hex (set_hex W h) =
      h % 256 * 2 ^ 24 + h / 2 ^ 8 % 256 * 2 ^ 16 + h / 2 ^ 16 % 256 * 2 ^ 8
        + h / 2 ^ 24 % 256 := by
  have hmod : h % 2 ^ 32 = h := Nat.mod_eq_of_lt hh
  have e0 : h % 256 < 256 := Nat.mod_lt _ (by norm_num)
  have e1 : h / 2 ^ 8 % 256 < 256 := Nat.mod_lt _ (by norm_num)
  have e2 : h / 2 ^ 16 % 256 < 256 := Nat.mod_lt _ (by norm_num)
  have e3 : h / 2 ^ 24 % 256 < 256 := Nat.mod_lt _ (by norm_num)
  simp only [set_hex, get_hex, hex_element_eq_mod, Nat.shiftRight_eq_div_pow, hmod,
    Nat.div_div_eq_div_mul]
  norm_num
  rw [scale_element_supported W hW _ e0, scale_element_supported W hW _ (by omega),
    scale_element_supported W hW _ (by omega), scale_element_supported W hW _ (by omega)]
  generalize h % 256 = b0 at e0 ⊢
  generalize h / 256 % 256 = b1 at e1 ⊢
  generalize h / 65536 % 256 = b2 at e2 ⊢
  generalize h / 16777216 % 256 = b3 at e3 ⊢
  have s0 := or_channel_scaled W hW 0 b0 e0 (by norm_num; omega)
  rw [Nat.mul_zero, Nat.zero_add] at s0
  have t0 := shl8_eq b0 (by norm_num; omega)
  have s1 := or_channel_scaled W hW b0 b1 e1 (by norm_num; omega)
  have t1 := shl8_eq (256 * b0 + b1) (by norm_num; omega)
  have s2 := or_channel_scaled W hW (256 * b0 + b1) b2 e2 (by norm_num; omega)
  have t2 := shl8_eq (256 * (256 * b0 + b1) + b2) (by norm_num; omega)
  have s3 := or_channel_scaled W hW (256 * (256 * b0 + b1) + b2) b3 e3 (by norm_num; omega)
  rw [s0, t0, s1, t1, s2, t2, s3]
  omega

/-- C26: for every supported channel type and every 32-bit value
`h = 0xB3B2B1B0`, `get_hex` after `set_hex(h)` returns the byte-reversed value
`0xB0B1B2B3`; hence the round trip returns `h` exactly when `h` is a byte
palindrome (`B3 = B0` and `B2 = B1`). -/
theorem get_hex_reverses_bytes (W : Nat) (hW : W = 8 ∨ W = 16 ∨ W = 32 ∨ W = 64) (h : Nat)
    (hh : h < 2 ^ 32) :
    get_hex (set_hex W h) =
      h % 256 * 2 ^ 24 + h / 2 ^ 8 % 256 * 2 ^ 16 + h / 2 ^ 16 % 256 * 2 ^ 8
        + h / 2 ^ 24 % 256 ∧
    (get_hex (set_hex W h) = h ↔
      (h / 2 ^ 24 % 256 = h % 256 ∧ h / 2 ^ 16 % 256 = h / 2 ^ 8 % 256)) := by
  have key := get_hex_set_hex W hW h hh
  refine ⟨key, ?_⟩
  rw [key]
  clear key
  have d1 : h / 2 ^ 8 = h / 256 := by norm_num
  have d2 : h / 2 ^ 16 = h / 256 / 256 := by
    rw [Nat.div_div_eq_div_mul]
    norm_num
  have d3 : h / 2 ^ 24 = h / 256 / 256 / 256 := by
    rw [Nat.div_div_eq_div_mul, Nat.div_div_eq_div_mul]
    norm_num
  rw [d1, d2, d3]
  have hh' : h < 4294967296 := hh
  have f1 := Nat.div_add_mod h 256
  have f2 := Nat.div_add_mod (h / 256) 256
  have f3 := Nat.div_add_mod (h / 256 / 256) 256
  have e0 : h % 256 < 256 := Nat.mod_lt _ (by norm_num)
  have e1 : h / 256 % 256 < 256 := Nat.mod_lt _ (by norm_num)
  have e2 : h / 256 / 256 % 256 < 256 := Nat.mod_lt _ (by norm_num)
  clear d1 d2 d3 hh
  generalize h / 256 / 256 % 256 = r2 at f3 e2 ⊢
  generalize h / 256 / 256 / 256 = q3 at f3 ⊢
  generalize h / 256 % 256 = r1 at f2 e1 ⊢
  generalize h / 256 / 256 = q2 at f2 f3 ⊢
  generalize h % 256 = r0 at f1 e0 ⊢
  generalize h / 256 = q1 at f1 f2 ⊢
  have e3 : q3 < 256 := by omega
  rw [Nat.mod_eq_of_lt e3]
  simp only [Nat.reducePow]
  omega

theorem get_hex_reverses_bytes_witness :
    (8 = 8 ∨ 8 = 16 ∨ 8 = 32 ∨ 8 = 64) ∧ 0xFF501FFF < 2 ^ 32 ∧
    (get_hex (set_hex 8 0xFF501FFF) =
      0xFF501FFF % 256 * 2 ^ 24 + 0xFF501FFF / 2 ^ 8 % 256 * 2 ^ 16
        + 0xFF501FFF / 2 ^ 16 % 256 * 2 ^ 8 + 0xFF501FFF / 2 ^ 24 % 256 ∧
    (get_hex (set_hex 8 0xFF501FFF) = 0xFF501FFF ↔
      (0xFF501FFF / 2 ^ 24 % 256 = 0xFF501FFF % 256 ∧
        0xFF501FFF / 2 ^ 16 % 256 = 0xFF501FFF / 2 ^ 8 % 256))) :=
  ⟨Or.inl rfl, by decide, get_hex_reverses_bytes 8 (Or.inl rfl) 0xFF501FFF (by decide)⟩

/-! ## Conversion to an integer vector -/

theorem truncation_eq_floor_or_ceil (q : ℚ) :
    Int.tdiv q.num q.den = if 0 ≤ q then ⌊q⌋ else ⌈q⌉ := by
  by_cases h : 0 ≤ q
  · rw [if_pos h, Rat.floor_def,
      Int.tdiv_eq_ediv (Rat.num_nonneg.2 h) (Int.natCast_nonneg _)]
  · rw [if_neg h]
    have hneg : 0 ≤ -q := by linarith
    have hfl : ⌊-q⌋ = (-q).num / ((-q).den : Int) := Rat.floor_def
    rw [Rat.neg_num, Rat.neg_den] at hfl
    have hce : ⌈q⌉ = -⌊-q⌋ := by rw [Int.floor_neg, neg_neg]
    have hn : 0 ≤ -q.num := by
      have := Rat.num_nonneg.2 hneg
      rwa [Rat.neg_num] at this
    rw [hce, hfl, ← Int.tdiv_eq_ediv hn (Int.natCast_nonneg _), Int.neg_tdiv, neg_neg]

theorem static_cast_int_of_abs_lt (q : ℚ) (h : |q| < 2147483648) :
    static_cast_int q = if 0 ≤ q then ⌊q⌋ else ⌈q⌉ := by
  obtain ⟨h1, h2⟩ := abs_lt.1 h
  unfold static_cast_int
  rw [truncation_eq_floor_or_ceil]
  by_cases h0 : 0 ≤ q
  · rw [if_pos h0]
    have hf0 : 0 ≤ ⌊q⌋ := Int.floor_nonneg.2 h0
    have hf1 : ⌊q⌋ < 2147483648 := by
      have : (⌊q⌋ : ℚ) < 2147483648 := lt_of_le_of_lt (Int.floor_le q) h2
      exact_mod_cast this
    exact to_signed_of_range _ (by omega) hf1
  · rw [if_neg h0]
    have hc0 : ⌈q⌉ ≤ 0 := Int.ceil_le.2 (by push_cast; linarith)
    have hc1 : -2147483648 < ⌈q⌉ := by
      have : ((-2147483648 : Int) : ℚ) < (⌈q⌉ : ℚ) := by
        push_cast
        exact lt_of_lt_of_le h1 (Int.le_ceil q)
      exact_mod_cast this
    exact to_signed_of_range _ (by omega) (by omega)

namespace vector

theorem data_to_int {N : Nat} (v : vector ℚ N) (k : Fin N) :
    (to_int v).data k = static_cast_int (v.data k) := by
  unfold to_int
  refine for_range_hit (fun (w : vector Int N) k => w.data k) _ (fun i k => k = i)
    (fun k _ => static_cast_int (v.data k)) ?_ ?_ ?_ zero k k rfl
  · intro i j k hi hj
    exact hi.symm.trans hj
  · intro s i k hk
    subst hk
    simp [data_set]
  · intro s i k hk
    simp [data_set, hk]

theorem dot_eq_sum {α : Type} [Semiring α] {N : Nat} (a b : vector α N) :
    dot a b = ∑ i, a.data i * b.data i := by
  unfold dot
  exact for_range_sum _

theorem data_add {α : Type} [Zero α] [Add α] {N : Nat} (a b : vector α N) (k : Fin N) :
    (add a b).data k = a.data k + b.data k := by
  unfold add
  refine for_range_hit (fun (w : vector α N) k => w.data k) _ (fun i k => k = i)
    (fun k _ => a.data k + b.data k) ?_ ?_ ?_ zero k k rfl
  · intro i j k hi hj
    exact hi.symm.trans hj
  · intro s i k hk
    subst hk
    simp [data_set]
  · intro s i k hk
    simp [data_set, hk]

end vector

/-- C22: converting a floating-point vector to an `int` vector casts every
element, in order, by truncation toward zero when the value is in the range of
`int`: the floor of a non-negative element and the ceiling of a negative one.
The vector `(1.0, 2.0, 5.5)` becomes `(1, 2, 5)` and the component `-5.5`
becomes `-5`. -/
theorem to_int_truncates_toward_zero {N : Nat} (v : vector ℚ N)
    (hr : ∀ i, |v.data i| < 2147483648) :
    (∀ i, (vector.to_int v).data i = if 0 ≤ v.data i then ⌊v.data i⌋ else ⌈v.data i⌉) ∧
    (∀ i, |((vector.to_int v).data i : ℚ)| ≤ |v.data i| ∧
      |v.data i - ((vector.to_int v).data i : ℚ)| < 1) ∧
    (vector.to_int (⟨![1, 2, 11 / 2]⟩ : vector ℚ 3)).data = ![1, 2, 5] ∧
    (vector.to_int (⟨![1, 2, -11 / 2]⟩ : vector ℚ 3)).data = ![1, 2, -5] := by
  have key : ∀ i, (vector.to_int v).data i
      = if 0 ≤ v.data i then ⌊v.data i⌋ else ⌈v.data i⌉ := by
    intro i
    rw [vector.data_to_int, static_cast_int_of_abs_lt _ (hr i)]
  refine ⟨key, ?_, ?_, ?_⟩
  · intro i
    rw [key i]
    by_cases h0 : 0 ≤ v.data i
    · rw [if_pos h0]
      have hf0 : (0 : ℚ) ≤ (⌊v.data i⌋ : ℚ) := by exact_mod_cast Int.floor_nonneg.2 h0
      have hf1 := Int.floor_le (v.data i)
      have hf2 := Int.lt_floor_add_one (v.data i)
      rw [abs_of_nonneg hf0, abs_of_nonneg h0, abs_of_nonneg (by linarith)]
      exact ⟨hf1, by linarith⟩
    · rw [if_neg h0]
      have hlt : v.data i < 0 := not_le.1 h0
      have hc0 : (⌈v.data i⌉ : ℚ) ≤ 0 := by exact_mod_cast Int.ceil_le.2 (by push_cast; linarith)
      have hc1 := Int.le_ceil (v.data i)
      have hc2 := Int.ceil_lt_add_one (v.data i)
      rw [abs_of_nonpos hc0, abs_of_neg hlt, abs_of_nonpos (by linarith)]
      exact ⟨by linarith, by linarith⟩
  · funext i
    rw [vector.data_to_int]
    fin_cases i
    · have h : static_cast_int (1 : ℚ) = 1 := by
        rw [static_cast_int_of_abs_lt _ (by norm_num)]
        norm_num
      simpa using h
    · have h : static_cast_int (2 : ℚ) = 2 := by
        rw [static_cast_int_of_abs_lt _ (by norm_num)]
        norm_num
      simpa using h
    · have h : static_cast_int (11 / 2 : ℚ) = 5 := by
        rw [static_cast_int_of_abs_lt _ (by rw [abs_lt]; constructor <;> norm_num)]
        norm_num [Int.floor_eq_iff]
      simpa using h
  · funext i
    rw [vector.data_to_int]
    fin_cases i
    · have h : static_cast_int (1 : ℚ) = 1 := by
        rw [static_cast_int_of_abs_lt _ (by norm_num)]
        norm_num
      simpa using h
    · have h : static_cast_int (2 : ℚ) = 2 := by
        rw [static_cast_int_of_abs_lt _ (by norm_num)]
        norm_num
      simpa using h
    · have h : static_cast_int (-11 / 2 : ℚ) = -5 := by
        rw [static_cast_int_of_abs_lt _ (by rw [abs_lt]; constructor <;> norm_num)]
        norm_num [Int.ceil_eq_iff]
      simpa using h

theorem to_int_truncates_toward_zero_witness :
    (∀ i, |(⟨![1, 2, 11 / 2]⟩ : vector ℚ 3).data i| < 2147483648) ∧
    ((∀ i, (vector.to_int (⟨![1, 2, 11 / 2]⟩ : vector ℚ 3)).data i
        = if 0 ≤ (⟨![1, 2, 11 / 2]⟩ : vector ℚ 3).data i
          then ⌊(⟨![1, 2, 11 / 2]⟩ : vector ℚ 3).data i⌋
          else ⌈(⟨![1, 2, 11 / 2]⟩ : vector ℚ 3).data i⌉) ∧
    (∀ i, |((vector.to_int (⟨![1, 2, 11 / 2]⟩ : vector ℚ 3)).data i : ℚ)|
        ≤ |(⟨![1, 2, 11 / 2]⟩ : vector ℚ 3).data i| ∧
      |(⟨![1, 2, 11 / 2]⟩ : vector ℚ 3).data i
        - ((vector.to_int (⟨![1, 2, 11 / 2]⟩ : vector ℚ 3)).data i : ℚ)| < 1) ∧
    (vector.to_int (⟨![1, 2, 11 / 2]⟩ : vector ℚ 3)).data = ![1, 2, 5] ∧
    (vector.to_int (⟨![1, 2, -11 / 2]⟩ : vector ℚ 3)).data = ![1, 2, -5]) :=
  have hr : ∀ i, |(⟨![1, 2, 11 / 2]⟩ : vector ℚ 3).data i| < 2147483648 := by
    intro i
    fin_cases i
    · show |(1 : ℚ)| < 2147483648
      rw [abs_lt]; constructor <;> norm_num
    · show |(2 : ℚ)| < 2147483648
      rw [abs_lt]; constructor <;> norm_num
    · show |(11 / 2 : ℚ)| < 2147483648
      rw [abs_lt]; constructor <;> norm_num
  ⟨hr, to_int_truncates_toward_zero ⟨![1, 2, 11 / 2]⟩ hr⟩

/-! ## Squared magnitude and mixed-type products -/

/-- C23: for every vector `v`, with an exact square root, `sqr_magnitude(v)`,
computed as `magnitude(v)` squared, equals the sum of the squares of the
elements of `v`, which is `dot(v, v)`. -/
theorem sqr_magnitude_eq_dot_self {α : Type} [LinearOrderedField α] {N : Nat}
    (sqrt : α → α) (hsq : ∀ x, 0 ≤ x → sqrt x * sqrt x = x) (v : vector α N) :
    vector.sqr_magnitude sqrt v = ∑ i, v.data i * v.data i ∧
    vector.sqr_magnitude sqrt v = vector.dot v v := by
  have hnn : 0 ≤ vector.sum_squares v := by
    rw [vector.sum_squares_eq_sum]
    exact Finset.sum_nonneg (fun i _ => mul_self_nonneg _)
  have h1 : vector.sqr_magnitude sqrt v = vector.sum_squares v := by
    simp only [vector.sqr_magnitude, vector.magnitude]
    exact hsq _ hnn
  exact ⟨by rw [h1, vector.sum_squares_eq_sum], by rw [h1, vector.sum_squares_eq_sum,
    vector.dot_eq_sum]⟩

theorem sqr_magnitude_eq_dot_self_witness :
    (∀ x : ℝ, 0 ≤ x → Real.sqrt x * Real.sqrt x = x) ∧
    (vector.sqr_magnitude Real.sqrt (⟨![3, 4]⟩ : vector ℝ 2)
        = ∑ i, (⟨![3, 4]⟩ : vector ℝ 2).data i * (⟨![3, 4]⟩ : vector ℝ 2).data i ∧
      vector.sqr_magnitude Real.sqrt (⟨![3, 4]⟩ : vector ℝ 2)
        = vector.dot (⟨![3, 4]⟩ : vector ℝ 2) ⟨![3, 4]⟩) :=
  ⟨fun _ hx => Real.mul_self_sqrt hx,
   sqr_magnitude_eq_dot_self Real.sqrt (fun _ hx => Real.mul_self_sqrt hx) ⟨![3, 4]⟩⟩

namespace matrix

theorem for_range_two {σ : Type} (body : Fin 2 → σ → σ) (s : σ) :
    for_range 2 body s = body 1 (body 0 s) := rfl

theorem rows_mul_int_float {N M : Nat} (a : matrix Int N M) (b : matrix ℚ M N)
    (i j : Fin N) :
    ((mul_int_float a b).rows i).data j =
      ((for_range M (fun k sum =>
        static_cast_int ((sum : ℚ) + ((a.rows i).data k : ℚ) * (b.rows k).data j))
        (0 : Int) : Int) : ℚ) := by
  have h := rows_fill (fun _ _ => True)
    (fun i j => ((for_range M (fun k sum =>
        static_cast_int ((sum : ℚ) + ((a.rows i).data k : ℚ) * (b.rows k).data j))
        (0 : Int) : Int) : ℚ))
    (zero_init : matrix ℚ N N) i j
  simp only [if_true] at h
  unfold mul_int_float
  exact h

end matrix

/-- C24: the promotion rule fails on the code for an `int` matrix times a
floating-point matrix, because the accumulator has the `int` type of the left
operand. For `A` the `2 x 2` `int` identity and `B` with `0.5` on the diagonal,
the entry `(A * B).rows[0][0]` is `0`, where the sum of the products in the
floating-point type is `0.5`. -/
theorem mul_int_float_truncates_sum :
    ((matrix.mul_int_float (matrix.of_elements ![1, 0, 0, 1] : matrix Int 2 2)
      (matrix.of_elements ![1 / 2, 0, 0, 1 / 2] : matrix ℚ 2 2)).rows 0).data 0 = 0 ∧
    (∑ k, ((((matrix.of_elements ![1, 0, 0, 1] : matrix Int 2 2).rows 0).data k : Int) : ℚ)
      * ((matrix.of_elements ![1 / 2, 0, 0, 1 / 2] : matrix ℚ 2 2).rows k).data 0) = 1 / 2 := by
  have h1 : static_cast_int (1 / 2 : ℚ) = 0 := by
    rw [static_cast_int_of_abs_lt _ (by rw [abs_lt]; constructor <;> norm_num)]
    norm_num [Int.floor_eq_iff]
  have h0 : static_cast_int (0 : ℚ) = 0 := by
    rw [static_cast_int_of_abs_lt _ (by norm_num)]
    norm_num
  constructor
  · rw [matrix.rows_mul_int_float, matrix.for_range_two]
    have e00 : (((matrix.of_elements ![1, 0, 0, 1] : matrix Int 2 2).rows 0).data 0) = 1 := rfl
    have e01 : (((matrix.of_elements ![1, 0, 0, 1] : matrix Int 2 2).rows 0).data 1) = 0 := rfl
    have f00 : (((matrix.of_elements ![1 / 2, 0, 0, 1 / 2] : matrix ℚ 2 2).rows 0).data 0)
        = 1 / 2 := rfl
    have f10 : (((matrix.of_elements ![1 / 2, 0, 0, 1 / 2] : matrix ℚ 2 2).rows 1).data 0)
        = 0 := rfl
    simp only [e00, e01, f00, f10]
    norm_num [h1, h0]
  · rw [Fin.sum_univ_two]
    have e00 : (((matrix.of_elements ![1, 0, 0, 1] : matrix Int 2 2).rows 0).data 0) = 1 := rfl
    have e01 : (((matrix.of_elements ![1, 0, 0, 1] : matrix Int 2 2).rows 0).data 1) = 0 := rfl
    have f00 : (((matrix.of_elements ![1 / 2, 0, 0, 1 / 2] : matrix ℚ 2 2).rows 0).data 0)
        = 1 / 2 := rfl
    have f10 : (((matrix.of_elements ![1 / 2, 0, 0, 1 / 2] : matrix ℚ 2 2).rows 1).data 0)
        = 0 := rfl
    rw [e00, e01, f00, f10]
    norm_num

/-! ## Identity and translations under the matrix product -/

/-- C28: for every square matrix `A` over one element type with exact
arithmetic, `identity() * A == A` and `A * identity() == A`. -/
theorem identity_mul_and_mul_identity {α : Type} [Semiring α] {N : Nat} (A : matrix α N N) :
    matrix.mul matrix.identity A = A ∧ matrix.mul A matrix.identity = A := by
  constructor
  · apply matrix.toMatrix_injective
    rw [matrix.toMatrix_mul, matrix.toMatrix_identity, Matrix.one_mul]
  · apply matrix.toMatrix_injective
    rw [matrix.toMatrix_mul, matrix.toMatrix_identity, Matrix.mul_one]

namespace matrix

theorem elements_translation {α : Type} [Zero α] [One α] (t : vector α 3) (r c : Fin 4) :
    (translation t).elements (spec_index r c) =
      if c = 3 ∧ r = 0 then t.data 0
      else if c = 3 ∧ r = 1 then t.data 1
      else if c = 3 ∧ r = 2 then t.data 2
      else if r = c then 1 else 0 := by
  simp only [translation, set_element, Function.update_apply, elements_of_diagonal_four]
  have v3 : ((3 : Fin 4) : ℕ) = 3 := rfl
  simp only [Fin.ext_iff, spec_index]
  fin_cases r <;> fin_cases c <;> simp [v3]

theorem toMatrix_translation {α : Type} [Zero α] [One α] (t : vector α 3) :
    toMatrix (translation t) =
      !![1, 0, 0, 0; 0, 1, 0, 0; 0, 0, 1, 0; t.data 0, t.data 1, t.data 2, 1] := by
  ext i j
  have hk : (flat_index i j : Fin (4 * 4)) = spec_index j i := Fin.ext (Nat.add_comm _ _)
  have h : toMatrix (translation t) i j = (translation t).elements (spec_index j i) := by
    simp only [toMatrix, rows, hk]
  rw [h, elements_translation]
  fin_cases i <;> fin_cases j <;> simp

theorem toMatrix_translation_mul {α : Type} [Field α] (a b : vector α 3) :
    toMatrix (translation a) * toMatrix (translation b)
      = toMatrix (translation (vector.add a b)) := by
  rw [toMatrix_translation, toMatrix_translation, toMatrix_translation]
  ext i j
  fin_cases i <;> fin_cases j <;>
    simp [Matrix.mul_apply, Fin.sum_univ_four, vector.data_add]

theorem toMatrix_translation_neg_mul {α : Type} [Field α] (a : vector α 3) :
    toMatrix (translation (⟨fun i => -a.data i⟩ : vector α 3)) * toMatrix (translation a)
      = 1 := by
  rw [toMatrix_translation, toMatrix_translation]
  ext i j
  fin_cases i <;> fin_cases j <;>
    simp [Matrix.mul_apply, Fin.sum_univ_four, Matrix.one_apply]

theorem inverse_determinant_translation {α : Type} [Field α] (a : vector α 3) :
    inverse_determinant (translation a) = 1 := by
  rw [inverse_determinant_eq_det, toMatrix_translation, det_four]
  ring

end matrix

/-- C29: for all 3-vectors `a` and `b` over exact arithmetic,
`translation(a) * translation(b) == translation(a + b)` under the library's
matrix product, and `inverse(translation(a))` is the translation by the
element-wise negated `a`. -/
theorem translation_mul_and_inverse {α : Type} [Field α] (a b : vector α 3) :
    matrix.mul (matrix.translation a) (matrix.translation b)
      = matrix.translation (vector.add a b) ∧
    matrix.inverse (matrix.translation a)
      = matrix.translation (⟨fun i => -a.data i⟩ : vector α 3) := by
  constructor
  · apply matrix.toMatrix_injective
    rw [matrix.toMatrix_mul, matrix.toMatrix_translation_mul]
  · apply matrix.toMatrix_injective
    have hdet : matrix.inverse_determinant (matrix.translation a) ≠ 0 := by
      rw [matrix.inverse_determinant_translation]
      exact one_ne_zero
    have h1 := matrix.toMatrix_mul_inverse (matrix.translation a) hdet
    have h2 := matrix.toMatrix_translation_neg_mul a
    calc matrix.toMatrix (matrix.inverse (matrix.translation a))
        = (matrix.toMatrix (matrix.translation (⟨fun i => -a.data i⟩ : vector α 3))
            * matrix.toMatrix (matrix.translation a))
            * matrix.toMatrix (matrix.inverse (matrix.translation a)) := by
          rw [h2, one_mul]
      _ = matrix.toMatrix (matrix.translation (⟨fun i => -a.data i⟩ : vector α 3)) := by
          rw [mul_assoc, h1, mul_one]

/-! ## The sine kernel and the rotation builder -/

theorem round_half_away_eq_of_abs_sub_lt {α : Type} [LinearOrderedField α] [FloorRing α]
    (x : α) (n : Int) (h : |x - (n : α)| < 1 / 2) : round_half_away x = n := by
  obtain ⟨h1, h2⟩ := abs_lt.1 h
  unfold round_half_away
  split
  · exact Int.floor_eq_iff.2 ⟨by linarith, by linarith⟩
  · exact Int.ceil_eq_iff.2 ⟨by linarith, by linarith⟩

theorem round_half_away_neg {α : Type} [LinearOrderedField α] [FloorRing α] (x : α) :
    round_half_away (-x) = -round_half_away x := by
  unfold round_half_away
  rcases lt_trichotomy x 0 with hx | hx | hx
  · have h1 : (0 : α) ≤ -x := by linarith
    have h2 : ¬ (0 : α) ≤ x := by linarith
    rw [if_pos h1, if_neg h2, ← Int.floor_neg]
    congr 1
    ring
  · subst hx
    have h0 : ⌊(0 : α) + 1 / 2⌋ = 0 := Int.floor_eq_iff.2 ⟨by norm_num, by norm_num⟩
    simp only [neg_zero, le_refl, if_true, h0]
  · have h1 : ¬ (0 : α) ≤ -x := by linarith
    have h2 : (0 : α) ≤ x := by linarith
    rw [if_neg h1, if_pos h2, ← Int.ceil_neg]
    congr 1
    ring

theorem double_to_int32_of_range (n : Int) (h0 : -2147483648 ≤ n) (h1 : n < 2147483648) :
    double_to_int32 n = n := by
  unfold double_to_int32
  rw [if_pos ⟨h0, h1⟩]

theorem tmod_two_ne_zero_iff_odd (k : Int) : (Int.tmod k 2 ≠ 0) ↔ Odd k := by
  rw [Ne, ← Int.dvd_iff_tmod_eq_zero, ← even_iff_two_dvd, Int.not_even_iff_odd]

/-- The function `sin` in terms of its reduction quotient: the polynomial at the
reduced argument, negated exactly when the quotient is odd. -/
theorem sin_eq_polynomial {α : Type} [LinearOrderedField α] [FloorRing α] (x : α) :
    sin x = if Odd (sin_quotient x) then -sin_polynomial (x - (sin_quotient x : α) * PI)
      else sin_polynomial (x - (sin_quotient x : α) * PI) := by
  unfold sin
  simp only [← tmod_two_ne_zero_iff_odd]
  rfl

theorem sin_zero {α : Type} [LinearOrderedField α] [FloorRing α] : sin (0 : α) = 0 := by
  have hr : round_half_away (INVERSED_PI * (0 : α)) = 0 :=
    round_half_away_eq_of_abs_sub_lt _ 0 (by norm_num)
  have hk : double_to_int32 (round_half_away (INVERSED_PI * (0 : α))) = 0 := by
    rw [hr]
    exact double_to_int32_of_range 0 (by norm_num) (by norm_num)
  simp only [sin, hk]
  norm_num

theorem cos_deg_to_rad_ninety : cos (deg_to_rad (90 : ℚ)) = 0 := by
  have h : (HALF_PI : ℚ) - deg_to_rad 90 = 0 := by
    norm_num [HALF_PI, deg_to_rad, PI]
  unfold cos
  rw [h]
  exact sin_zero

theorem rotation_diagonal {α : Type} [LinearOrderedField α] [FloorRing α]
    (angle : α) (axis : vector α 3) :
    (matrix.rotation angle axis).elements (matrix.spec_index 0 0)
      = axis.data 0 * (1 - cos (deg_to_rad angle)) + cos (deg_to_rad angle) ∧
    (matrix.rotation angle axis).elements (matrix.spec_index 1 1)
      = axis.data 1 * (1 - cos (deg_to_rad angle)) + cos (deg_to_rad angle) ∧
    (matrix.rotation angle axis).elements (matrix.spec_index 2 2)
      = axis.data 2 * (1 - cos (deg_to_rad angle)) + cos (deg_to_rad angle) := by
  refine ⟨?_, ?_, ?_⟩ <;>
    simp only [matrix.rotation, matrix.set_element, Function.update_apply] <;>
    repeat (first | rw [if_pos (by decide)] | rw [if_neg (by decide)])

/-- C25: the Rodrigues form fails on the diagonal of `rotation`: the code stores
`axis.x * omc + c`, `axis.y * omc + c`, `axis.z * omc + c`, with the axis
component not squared. For the angle of 90 degrees, where `c = 0`, and the unit
axis `(3/5, 4/5, 0)` the first diagonal entry is `3/5`, where
`x * x * (1 - c) + c` is `9/25`. -/
theorem rotation_diagonal_not_squared :
    (∀ (angle : ℚ) (axis : vector ℚ 3),
      (matrix.rotation angle axis).elements (matrix.spec_index 0 0)
        = axis.data 0 * (1 - cos (deg_to_rad angle)) + cos (deg_to_rad angle) ∧
      (matrix.rotation angle axis).elements (matrix.spec_index 1 1)
        = axis.data 1 * (1 - cos (deg_to_rad angle)) + cos (deg_to_rad angle) ∧
      (matrix.rotation angle axis).elements (matrix.spec_index 2 2)
        = axis.data 2 * (1 - cos (deg_to_rad angle)) + cos (deg_to_rad angle)) ∧
    cos (deg_to_rad (90 : ℚ)) = 0 ∧
    (matrix.rotation (90 : ℚ) ⟨![3 / 5, 4 / 5, 0]⟩).elements (matrix.spec_index 0 0) = 3 / 5 ∧
    (3 / 5 : ℚ) * (3 / 5) * (1 - cos (deg_to_rad (90 : ℚ))) + cos (deg_to_rad (90 : ℚ))
      = 9 / 25 := by
  refine ⟨fun angle axis => rotation_diagonal angle axis, cos_deg_to_rad_ninety, ?_, ?_⟩
  · rw [(rotation_diagonal (90 : ℚ) ⟨![3 / 5, 4 / 5, 0]⟩).1, cos_deg_to_rad_ninety]
    norm_num
  · rw [cos_deg_to_rad_ninety]
    norm_num

/-- The quotient of `-x` is the negation of the quotient of `x` wherever the
rounded quotient and its negation are both values of `int32_t`. -/
theorem sin_quotient_neg {α : Type} [LinearOrderedField α] [FloorRing α]
    (x : α) (h1 : -2147483648 < round_half_away (INVERSED_PI * x))
    (h2 : round_half_away (INVERSED_PI * x) < 2147483648) :
    sin_quotient x = round_half_away (INVERSED_PI * x) ∧
    sin_quotient (-x) = -round_half_away (INVERSED_PI * x) := by
  constructor
  · exact double_to_int32_of_range _ (by omega) h2
  · unfold sin_quotient
    rw [mul_neg, round_half_away_neg]
    exact double_to_int32_of_range _ (by omega) (by omega)

theorem sin_polynomial_neg {α : Type} [LinearOrderedField α] (y : α) :
    sin_polynomial (-y) = -sin_polynomial y := by
  unfold sin_polynomial
  simp only
  ring

theorem round_half_away_at_int32_min :
    round_half_away (INVERSED_PI * (-2147483648 * PI : ℚ)) = -2147483648 := by
  apply round_half_away_eq_of_abs_sub_lt
  rw [abs_lt]
  constructor <;> norm_num [INVERSED_PI, PI]

theorem round_half_away_at_int32_min_neg :
    round_half_away (INVERSED_PI * -(-2147483648 * PI : ℚ)) = 2147483648 := by
  apply round_half_away_eq_of_abs_sub_lt
  rw [abs_lt]
  constructor <;> norm_num [INVERSED_PI, PI]

theorem round_half_away_minus_three :
    round_half_away (INVERSED_PI * (-3 : ℚ)) = -1 := by
  apply round_half_away_eq_of_abs_sub_lt
  rw [abs_lt]
  constructor <;> norm_num [INVERSED_PI]

/-- The polynomial of `sin` vanishes at zero only: its quartic factor
`C + y2 * (B + A * y2)` is positive. -/
theorem sin_polynomial_ne_zero {α : Type} [LinearOrderedField α] (y : α) (hy : y ≠ 0) :
    sin_polynomial y ≠ 0 := by
  unfold sin_polynomial
  simp only
  refine mul_ne_zero hy (ne_of_gt ?_)
  have h := sq_nonneg (2 * (0.00735246819687011731341356165096815 : α) * (y * y)
    + (-0.16528911397014738207016302002888890 : α))
  norm_num at h ⊢
  nlinarith [h]

/-- C30, as stated, fails at the least `int32_t` quotient: for
`x = -2147483648 * PI` the rounded quotient is `-2147483648`, a value of
`int32_t`, and `sin(x)` is `0`; the rounded quotient of `-x` is `2147483648`,
which no `int32_t` holds. Whatever `int32_t` value `k` its conversion yields,
`k` is not the negation of the quotient of `x`, and the polynomial of `sin` at
`-x - k * PI` is not `0`, so `sin(-x)` differs from `-sin(x)`; with the value
`-2147483648` that the x64 conversion yields, the quotient of `-x` equals that
of `x` and `sin(-x)` is not `-sin(x)`. Nor is the quotient rounded half to even:
where `INVERSED_PI * x` is `1 / 2` the quotient is `1`, not the even
neighbour `0`. -/
theorem sin_not_odd_at_int32_min :
    round_half_away (INVERSED_PI * (-2147483648 * PI : ℚ)) = -2147483648 ∧
    sin_quotient (-2147483648 * PI : ℚ) = -2147483648 ∧
    sin (-2147483648 * PI : ℚ) = 0 ∧
    round_half_away (INVERSED_PI * -(-2147483648 * PI : ℚ)) = 2147483648 ∧
    (∀ k : Int, -2147483648 ≤ k → k < 2147483648 →
      k ≠ -sin_quotient (-2147483648 * PI : ℚ) ∧
      sin_polynomial (-(-2147483648 * PI : ℚ) - (k : ℚ) * PI) ≠ 0) ∧
    sin_quotient (-(-2147483648 * PI : ℚ)) = -2147483648 ∧
    sin_quotient (-(-2147483648 * PI : ℚ)) ≠ -sin_quotient (-2147483648 * PI : ℚ) ∧
    sin (-(-2147483648 * PI : ℚ)) ≠ -sin (-2147483648 * PI : ℚ) ∧
    INVERSED_PI * ((1 / 2) / INVERSED_PI : ℚ) = 1 / 2 ∧
    sin_quotient ((1 / 2) / INVERSED_PI : ℚ) = 1 ∧
    round_half_even (INVERSED_PI * ((1 / 2) / INVERSED_PI : ℚ)) = 0 := by
  have hk : sin_quotient (-2147483648 * PI : ℚ) = -2147483648 := by
    unfold sin_quotient
    rw [round_half_away_at_int32_min]
    decide
  have hk' : sin_quotient (-(-2147483648 * PI : ℚ)) = -2147483648 := by
    unfold sin_quotient
    rw [round_half_away_at_int32_min_neg]
    decide
  have ht : ¬ Odd (-2147483648 : Int) := by decide
  have hs : sin (-2147483648 * PI : ℚ) = 0 := by
    rw [sin_eq_polynomial, hk, if_neg ht]
    norm_num [sin_polynomial]
  have hany : ∀ k : Int, -2147483648 ≤ k → k < 2147483648 →
      k ≠ -sin_quotient (-2147483648 * PI : ℚ) ∧
      sin_polynomial (-(-2147483648 * PI : ℚ) - (k : ℚ) * PI) ≠ 0 := by
    intro k _ hk2
    refine ⟨?_, sin_polynomial_ne_zero _ ?_⟩
    · rw [hk]
      omega
    · have hlt : (k : ℚ) < 2147483648 := by exact_mod_cast hk2
      have hpi : (0 : ℚ) < PI := by norm_num [PI]
      have : (0 : ℚ) < (2147483648 - (k : ℚ)) * PI := mul_pos (by linarith) hpi
      intro h0
      rw [show -(-2147483648 * PI : ℚ) - (k : ℚ) * PI = (2147483648 - (k : ℚ)) * PI by ring] at h0
      linarith
  have hhalf : INVERSED_PI * ((1 / 2) / INVERSED_PI : ℚ) = 1 / 2 := by
    norm_num [INVERSED_PI]
  refine ⟨round_half_away_at_int32_min, hk, hs, round_half_away_at_int32_min_neg, hany, hk',
    ?_, ?_, hhalf, ?_, ?_⟩
  · rw [hk, hk']
    norm_num
  · rw [hs, neg_zero, sin_eq_polynomial, hk', if_neg ht]
    exact (hany (-2147483648) (by norm_num) (by norm_num)).2
  · unfold sin_quotient
    rw [hhalf]
    have : round_half_away (1 / 2 : ℚ) = 1 := by
      unfold round_half_away
      norm_num [Int.floor_eq_iff]
    rw [this]
    decide
  · rw [hhalf]
    unfold round_half_even
    have hf : ⌊(1 / 2 : ℚ)⌋ = 0 := by norm_num [Int.floor_eq_iff]
    simp only [hf]
    norm_num

/-- C30, amended: for every `x` whose reduction quotient and its negation both
fit in `int32_t` (the quotient `INVERSED_PI * x`, rounded to the nearest integer
with a halfway case going away from zero, lies strictly between `-2147483648`
and `2147483648`), with exact arithmetic, `sin(-x) == -sin(x)`; the reduction
quotient of `-x` is the negation of that of `x`, and `sin` negates the value of
its polynomial at the reduced argument exactly when the quotient is odd,
negative odd quotients included. -/
theorem sin_odd_when_negated_quotient_fits {α : Type} [LinearOrderedField α] [FloorRing α]
    (x : α) (h1 : -2147483648 < round_half_away (INVERSED_PI * x))
    (h2 : round_half_away (INVERSED_PI * x) < 2147483648) :
    sin (-x) = -sin x ∧
    sin_quotient x = round_half_away (INVERSED_PI * x) ∧
    sin_quotient (-x) = -sin_quotient x ∧
    sin x = (if Odd (sin_quotient x)
      then -sin_polynomial (x - (sin_quotient x : α) * PI)
      else sin_polynomial (x - (sin_quotient x : α) * PI)) ∧
    sin (-x) = (if Odd (sin_quotient (-x))
      then -sin_polynomial (-x - (sin_quotient (-x) : α) * PI)
      else sin_polynomial (-x - (sin_quotient (-x) : α) * PI)) ∧
    (Odd (sin_quotient (-x)) ↔ Odd (sin_quotient x)) := by
  obtain ⟨hq, hq'⟩ := sin_quotient_neg x h1 h2
  have hneg : sin_quotient (-x) = -sin_quotient x := by rw [hq, hq']
  have hodd : Odd (sin_quotient (-x)) ↔ Odd (sin_quotient x) := by
    rw [hneg, odd_neg]
  refine ⟨?_, hq, hneg, sin_eq_polynomial x, sin_eq_polynomial (-x), hodd⟩
  rw [sin_eq_polynomial (-x), sin_eq_polynomial x]
  have harg : -x - ((sin_quotient (-x) : Int) : α) * PI
      = -(x - ((sin_quotient x : Int) : α) * PI) := by
    rw [hneg]
    push_cast
    ring
  rw [harg, sin_polynomial_neg]
  by_cases ho : Odd (sin_quotient x)
  · rw [if_pos ho, if_pos (hodd.2 ho)]
  · rw [if_neg ho, if_neg (fun h => ho (hodd.1 h))]

theorem sin_odd_when_negated_quotient_fits_witness :
    -2147483648 < round_half_away (INVERSED_PI * (-3 : ℚ)) ∧
    round_half_away (INVERSED_PI * (-3 : ℚ)) < 2147483648 ∧
    sin_quotient (-3 : ℚ) = -1 ∧
    (sin (-(-3 : ℚ)) = -sin (-3 : ℚ) ∧
    sin_quotient (-3 : ℚ) = round_half_away (INVERSED_PI * (-3 : ℚ)) ∧
    sin_quotient (-(-3 : ℚ)) = -sin_quotient (-3 : ℚ) ∧
    sin (-3 : ℚ) = (if Odd (sin_quotient (-3 : ℚ))
      then -sin_polynomial ((-3 : ℚ) - (sin_quotient (-3 : ℚ) : ℚ) * PI)
      else sin_polynomial ((-3 : ℚ) - (sin_quotient (-3 : ℚ) : ℚ) * PI)) ∧
    sin (-(-3 : ℚ)) = (if Odd (sin_quotient (-(-3 : ℚ)))
      then -sin_polynomial (-(-3 : ℚ) - (sin_quotient (-(-3 : ℚ)) : ℚ) * PI)
      else sin_polynomial (-(-3 : ℚ) - (sin_quotient (-(-3 : ℚ)) : ℚ) * PI)) ∧
    (Odd (sin_quotient (-(-3 : ℚ))) ↔ Odd (sin_quotient (-3 : ℚ)))) :=
  ⟨by rw [round_half_away_minus_three]; norm_num,
   by rw [round_half_away_minus_three]; norm_num,
   by unfold sin_quotient; rw [round_half_away_minus_three]; decide,
   sin_odd_when_negated_quotient_fits (-3 : ℚ)
    (by rw [round_half_away_minus_three]; norm_num)
    (by rw [round_half_away_minus_three]; norm_num)⟩

end gmath
